import Mathlib

/-! QubitX: the qubit state model and its gate algebra

A shallow embedding of `QubitState` and `QuantumGates` from `script.js`.

Numbers: the JavaScript doubles are read as exact real numbers (`ℝ`) and the
math.js complex values as `ℂ`.  Where the range or the rounding of doubles decides
a claim, the constructor and the probabilities are modelled a second time over
`Double` (the `...Double` definitions), with the rounding of every exact result
as a parameter: `Double.ofReal` represents the range only (overflow to
`Infinity`, underflow to zero) and `Double.round` is the IEEE 754 rounding to
nearest, ties to even.  Objects that are mutated in place live in a `QubitHeap`.
The library primitives map as follows.

* `math.complex(x)`        : a real number is coerced to `ℂ`, a complex value is kept;
* `math.complex(re, im)`   : `Complex.mk re im`;
* `math.abs(z)`            : `Complex.abs z`, i.e. `sqrt (re² + im²)`;
* `math.arg(z)`            : `Complex.arg z`, i.e. `atan2 im re`, with `arg 0 = 0`;
* `math.add`, `math.multiply`, `math.divide` : the field operations of `ℂ`;
* `Math.sqrt`, `Math.sin`, `Math.cos`, `Math.PI` : `Real.sqrt`, `Real.sin`, `Real.cos`, `Real.pi`;
* `Math.pow(x, 2)`         : `x ^ 2`;
* `Math.acos(x)`           : `Real.arccos x` on `[-1, 1]`, and no value (NaN) outside.
* `x.toFixed(f)`           : `Number.toFixed x f`, rounding to `f` decimals, ties upward in magnitude.
-/

noncomputable section

/-! ## Definitions -/

/-- The object built by `class QubitState`: the two stored amplitudes. -/
structure QubitState where
  alpha : ℂ
  beta : ℂ

/-- JavaScript `Math.acos`: the arc cosine on `[-1, 1]`; outside that interval JavaScript
yields NaN, rendered here as `none`. -/
def Math.acos (x : ℝ) : Option ℝ :=
  if -1 ≤ x ∧ x ≤ 1 then some (Real.arccos x) else none

/-- Method `normalize()`: divides both amplitudes by the Euclidean norm unless the
norm is zero. The method mutates `this`; here it returns the updated object. -/
def QubitState.normalize (self : QubitState) : QubitState :=
  let norm := Real.sqrt (Complex.abs self.alpha ^ 2 + Complex.abs self.beta ^ 2)
  if norm ≠ 0 then
    { alpha := self.alpha / (norm : ℂ), beta := self.beta / (norm : ℂ) }
  else
    self

/-- Method `constructor(alpha, beta)`: stores the amplitudes, then normalizes. -/
def QubitState.constructor (alpha beta : ℂ) : QubitState :=
  QubitState.normalize { alpha := alpha, beta := beta }

/-- Method `probability0()`. -/
def QubitState.probability0 (self : QubitState) : ℝ :=
  Complex.abs self.alpha ^ 2

/-- Method `probability1()`. -/
def QubitState.probability1 (self : QubitState) : ℝ :=
  Complex.abs self.beta ^ 2

/-- A state is normalized when its squared magnitudes sum to one. -/
def QubitState.IsNormalized (s : QubitState) : Prop :=
  Complex.abs s.alpha ^ 2 + Complex.abs s.beta ^ 2 = 1

/-- Division `math.divide(z, r)` with the divisor made explicit: `none` when `r` is zero. -/
def math.divideChecked (z : ℂ) (r : ℝ) : Option ℂ :=
  if r = 0 then none else some (z / (r : ℂ))

/-- Method `normalize()` again, with every division routed through `math.divideChecked`,
so that a division by zero would surface as `none`. -/
def QubitState.normalizeChecked (self : QubitState) : Option QubitState :=
  let norm := Real.sqrt (Complex.abs self.alpha ^ 2 + Complex.abs self.beta ^ 2)
  if norm ≠ 0 then
    (math.divideChecked self.alpha norm).bind fun a =>
      (math.divideChecked self.beta norm).bind fun b =>
        some { alpha := a, beta := b }
  else
    some self

/-- Method `constructor(alpha, beta)` over `normalizeChecked`. -/
def QubitState.constructorChecked (alpha beta : ℂ) : Option QubitState :=
  QubitState.normalizeChecked { alpha := alpha, beta := beta }

/-- The record returned by `toBlochCoordinates()`. -/
structure BlochCoordinates where
  x : ℝ
  y : ℝ
  z : ℝ
  theta : ℝ
  phi : ℝ

/-- Method `toBlochCoordinates()`. The result is `none` exactly when `Math.acos` is
applied outside `[-1, 1]` (NaN in JavaScript). -/
def QubitState.toBlochCoordinates (self : QubitState) : Option BlochCoordinates :=
  (Math.acos (Complex.abs self.alpha)).map fun acosAbsAlpha =>
    let theta := 2 * acosAbsAlpha
    let phi := if Complex.abs self.beta > 1e-10 then
      Complex.arg self.beta - Complex.arg self.alpha else 0
    let x := Real.sin theta * Real.cos phi
    let y := Real.sin theta * Real.sin phi
    let z := Real.cos theta
    { x := x, y := y, z := z, theta := theta, phi := phi }

/-- A gate is a 2×2 array of complex entries, `gate[i][j]` being `gate i j`.
Plain-number entries of the source are complex numbers with zero imaginary part. -/
abbrev Gate := Fin 2 → Fin 2 → ℂ

/-- Static method `QuantumGates.pauliX()`. -/
def QuantumGates.pauliX : Gate :=
  ![![0, 1], ![1, 0]]

/-- Static method `QuantumGates.pauliY()`. -/
def QuantumGates.pauliY : Gate :=
  ![![0, Complex.mk 0 (-1)], ![Complex.mk 0 1, 0]]

/-- Static method `QuantumGates.pauliZ()`. -/
def QuantumGates.pauliZ : Gate :=
  ![![1, 0], ![0, -1]]

/-- Static method `QuantumGates.hadamard()`. -/
def QuantumGates.hadamard : Gate :=
  let inv_sqrt2 : ℝ := 1 / Real.sqrt 2
  ![![(inv_sqrt2 : ℂ), (inv_sqrt2 : ℂ)], ![(inv_sqrt2 : ℂ), ((-inv_sqrt2 : ℝ) : ℂ)]]

/-- Static method `QuantumGates.sGate()`. -/
def QuantumGates.sGate : Gate :=
  ![![1, 0], ![0, Complex.mk 0 1]]

/-- Static method `QuantumGates.tGate()`. -/
def QuantumGates.tGate : Gate :=
  let phase : ℂ := Complex.mk (Real.cos (Real.pi / 4)) (Real.sin (Real.pi / 4))
  ![![1, 0], ![0, phase]]

/-- Static method `QuantumGates.applyGate(gate, state)`. -/
def QuantumGates.applyGate (gate : Gate) (state : QubitState) : QubitState :=
  let alpha := gate 0 0 * state.alpha + gate 0 1 * state.beta
  let beta := gate 1 0 * state.alpha + gate 1 1 * state.beta
  QubitState.constructor alpha beta

/-- The six catalog gates. -/
def QuantumGates.catalog : List Gate :=
  [QuantumGates.pauliX, QuantumGates.pauliY, QuantumGates.pauliZ,
   QuantumGates.hadamard, QuantumGates.sGate, QuantumGates.tGate]

/-- The state built by `new QubitState()` with the default arguments
`alpha = 1`, `beta = 0`. -/
def QubitState.constructorDefault : QubitState :=
  QubitState.constructor 1 0

/-- Function `createStateFromAngles(theta, phi)`. -/
def createStateFromAngles (theta phi : ℝ) : QubitState :=
  let alpha : ℝ := Real.cos (theta / 2)
  let beta : ℂ := Complex.mk (Real.cos phi) (Real.sin phi) * ((Real.sin (theta / 2) : ℝ) : ℂ)
  QubitState.constructor (alpha : ℂ) beta

/-- Digit string of `Number.prototype.toFixed(f)` for the rounded integer `n`:
the decimal digits of `n`, padded with leading zeros to `f + 1` characters,
with a point before the last `f` digits (no point when `f = 0`). -/
def Number.toFixedDigits (n f : ℕ) : String :=
  let m := Nat.repr n
  if f ≠ 0 then
    let k := m.length
    let m := if k ≤ f then String.mk (List.replicate (f + 1 - k) '0') ++ m else m
    let k := if k ≤ f then f + 1 else k
    m.take (k - f) ++ "." ++ m.drop (k - f)
  else
    m

/-- JavaScript `x.toFixed(f)` for a real `x` below `10^21` in magnitude: a minus
sign for negative `x`, then the integer `n` nearest to `|x| * 10^f` (the larger
one on a tie) written with `f` decimals. -/
def Number.toFixed (x : ℝ) (f : ℕ) : String :=
  let s := if x < 0 then "-" else ""
  let x := if x < 0 then -x else x
  let n := ⌊x * 10 ^ f + 1 / 2⌋₊
  s ++ Number.toFixedDigits n f

/-- The local function `formatComplex` of `toString()`, on a math.js complex value. -/
def QubitState.formatComplex (c : ℂ) : String :=
  let real := c.re
  let imag := c.im
  if |imag| < 1e-10 then
    Number.toFixed real 3
  else if |real| < 1e-10 then
    if |imag - 1| < 1e-10 then "i"
    else if |imag + 1| < 1e-10 then "-i"
    else Number.toFixed imag 3 ++ "i"
  else
    let sign := if imag ≥ 0 then "+" else ""
    Number.toFixed real 3 ++ sign ++ Number.toFixed imag 3 ++ "i"

/-- The local constant `sign` of the two-term branch of `toString()`. -/
def QubitState.toStringSign (self : QubitState) : String :=
  let betaReal := self.beta.re
  let betaImag := self.beta.im
  if betaReal ≥ 0 ∨ (betaReal = 0 ∧ betaImag ≥ 0) then "+" else ""

/-- Method `toString()`. -/
def QubitState.toString (self : QubitState) : String :=
  let alphaStr := QubitState.formatComplex self.alpha
  let betaStr := QubitState.formatComplex self.beta
  if Complex.abs self.alpha < 1e-10 then
    "|ψ⟩ = " ++ betaStr ++ "|1⟩"
  else if Complex.abs self.beta < 1e-10 then
    "|ψ⟩ = " ++ alphaStr ++ "|0⟩"
  else
    "|ψ⟩ = " ++ alphaStr ++ "|0⟩ " ++ self.toStringSign ++ betaStr ++ "|1⟩"

/-- What `applySelectedGate()` does to the displayed state: it either assigns
`currentState` at once, or starts `animateGateTransition(fromState, toState, gateName)`. -/
inductive GateEffect where
  | assign (currentState : QubitState)
  | animate (fromState toState : QubitState) (gateName : String)

/-- The `switch (gateType)` of `applySelectedGate()`: the selected matrix with its
display name, and `none` for the `default` branch. -/
def applySelectedGate.switch (gateType : String) : Option (Gate × String) :=
  match gateType with
  | "x" => some (QuantumGates.pauliX, "Pauli-X")
  | "y" => some (QuantumGates.pauliY, "Pauli-Y")
  | "z" => some (QuantumGates.pauliZ, "Pauli-Z")
  | "h" => some (QuantumGates.hadamard, "Hadamard")
  | "s" => some (QuantumGates.sGate, "S")
  | "t" => some (QuantumGates.tGate, "T")
  | _ => none

/-- Function `applySelectedGate()`, with the value of the gate selector and the
globals `currentState`, `originalState` and `isAnimating` as arguments. -/
def applySelectedGate (gateType : String) (currentState originalState : QubitState)
    (isAnimating : Bool) : GateEffect :=
  match applySelectedGate.switch gateType with
  | none =>
    GateEffect.assign (QubitState.constructor originalState.alpha originalState.beta)
  | some (gate, gateName) =>
    let newState := QuantumGates.applyGate gate originalState
    if gateType ≠ "none" ∧ isAnimating = false then
      GateEffect.animate currentState newState gateName
    else
      GateEffect.assign newState

/-- The easing applied in `animateStep`: `1 - Math.pow(1 - progress, 3)`. -/
def animateGateTransition.easedProgress (progress : ℝ) : ℝ :=
  1 - (1 - progress) ^ 3

/-- The `interpolatedState` built by `animateStep` inside `animateGateTransition`
for a given eased progress. -/
def animateGateTransition.interpolatedState (fromState toState : QubitState)
    (easedProgress : ℝ) : QubitState :=
  let alphaReal := fromState.alpha.re + (toState.alpha.re - fromState.alpha.re) * easedProgress
  let alphaImag := fromState.alpha.im + (toState.alpha.im - fromState.alpha.im) * easedProgress
  let betaReal := fromState.beta.re + (toState.beta.re - fromState.beta.re) * easedProgress
  let betaImag := fromState.beta.im + (toState.beta.im - fromState.beta.im) * easedProgress
  QubitState.constructor (Complex.mk alphaReal alphaImag) (Complex.mk betaReal betaImag)

/-- The JavaScript heap as far as `QubitState` objects go: the object behind
the reference `r` is the `r`-th entry of the list. -/
abbrev QubitHeap := List QubitState

/-- Method `normalize()` as a mutation: the assignments to `this.alpha` and
`this.beta` overwrite, in place, the object that `this` refers to. -/
def QubitHeap.normalize (heap : QubitHeap) (this : ℕ) : QubitHeap :=
  match heap[this]? with
  | none => heap
  | some self => heap.set this (QubitState.normalize self)

/-- Expression `new QubitState(alpha, beta)` on the heap: a fresh object is
allocated, its two fields are assigned, and `normalize()` then mutates it.
The result is the reference of the new object and the heap after the call. -/
def QubitHeap.construct (heap : QubitHeap) (alpha beta : ℂ) : ℕ × QubitHeap :=
  let this := heap.length
  let heap1 := heap ++ [{ alpha := alpha, beta := beta }]
  (this, QubitHeap.normalize heap1 this)

/-- Static method `QuantumGates.applyGate(gate, state)` on the heap, `state` being
a reference to an object: the reference of the returned object and the heap
after the call (`none` for a reference to no object). -/
def QubitHeap.applyGate (heap : QubitHeap) (gate : Gate) (state : ℕ) :
    Option (ℕ × QubitHeap) :=
  match heap[state]? with
  | none => none
  | some s =>
    let alpha := gate 0 0 * s.alpha + gate 0 1 * s.beta
    let beta := gate 1 0 * s.alpha + gate 1 1 * s.beta
    some (QubitHeap.construct heap alpha beta)

/-- The result that the specification gives for `ApplyGate(matrix, state)`: the
complex matrix-vector product of the matrix with `(alpha, beta)`, divided by
its Euclidean norm, and left as it is when that norm is zero. -/
def QuantumGates.applyGateSpec (m : Matrix (Fin 2) (Fin 2) ℂ) (alpha beta : ℂ) : QubitState :=
  let v := Matrix.mulVec m ![alpha, beta]
  let n := Real.sqrt (Complex.normSq (v 0) + Complex.normSq (v 1))
  if n = 0 then { alpha := v 0, beta := v 1 }
  else { alpha := v 0 / (n : ℂ), beta := v 1 / (n : ℂ) }

/-- A JavaScript number that is not NaN: a real number, or `Infinity`. Which real
numbers occur is decided by the rounding that produces them, `Double.ofReal` or
`Double.round` below. -/
inductive Double where
  | finite (x : ℝ)
  | infinity

/-- An exact result of this magnitude or more is rounded to `Infinity`:
`Number.MAX_VALUE` plus half a unit in its last place. -/
def Double.overflowThreshold : ℝ := (2 - 2 ^ (-53 : ℤ)) * 2 ^ (1023 : ℤ)

/-- An exact result of this magnitude or less is rounded to zero: half of
`Number.MIN_VALUE`. -/
def Double.underflowThreshold : ℝ := 2 ^ (-1075 : ℤ)

/-- Rounding as far as the range of doubles goes: an exact result becomes
`Infinity` or zero when it is too large or too small, and is kept as it is in
between. The rounding of the significand to 53 bits is not represented. -/
def Double.ofReal (x : ℝ) : Double :=
  if Double.overflowThreshold ≤ |x| then Double.infinity
  else if |x| ≤ Double.underflowThreshold then Double.finite 0
  else Double.finite x

/-- The integer nearest to `y`, the even one of the two when `y` lies halfway. -/
def Double.nearestEven (y : ℝ) : ℤ :=
  if y - ⌊y⌋ < 1 / 2 then ⌊y⌋
  else if 1 / 2 < y - ⌊y⌋ then ⌊y⌋ + 1
  else if Even ⌊y⌋ then ⌊y⌋ else ⌊y⌋ + 1

/-- The binary exponent of the unit in the last place of the doubles around `x`:
52 places below the leading bit of `x`, and `-1074` for the subnormal numbers. -/
def Double.ulpExponent (x : ℝ) : ℤ :=
  max (Int.log 2 |x| - 52) (-1074)

/-- IEEE 754 rounding of an exact result to a double: to the nearest multiple of
the unit in the last place, ties to the even one, and to `Infinity` when that
multiple reaches `2 ^ 1024`. -/
def Double.round (x : ℝ) : Double :=
  let r := (Double.nearestEven (x / 2 ^ Double.ulpExponent x) : ℝ) * 2 ^ Double.ulpExponent x
  if 2 ^ (1024 : ℤ) ≤ |r| then Double.infinity else Double.finite r

/-- Function `math.abs` of a complex value, as a double: math.js is taken to
return the magnitude rounded once, by `rnd`. -/
def Double.abs (rnd : ℝ → Double) (z : ℂ) : Double :=
  rnd (Complex.abs z)

/-- Function `Math.pow(x, n)` for a non-negative double `x`. -/
def Double.pow (rnd : ℝ → Double) (x : Double) (n : ℕ) : Double :=
  match x with
  | Double.finite v => rnd (v ^ n)
  | Double.infinity => if n = 0 then Double.finite 1 else Double.infinity

/-- Sum of two non-negative doubles. -/
def Double.add (rnd : ℝ → Double) (x y : Double) : Double :=
  match x, y with
  | Double.finite a, Double.finite b => rnd (a + b)
  | _, _ => Double.infinity

/-- Function `Math.sqrt` of a non-negative double. -/
def Double.sqrt (rnd : ℝ → Double) (x : Double) : Double :=
  match x with
  | Double.finite v => rnd (Real.sqrt v)
  | Double.infinity => Double.infinity

/-- Quotient of a finite number by a positive double: a finite number divided
by `Infinity` is zero. -/
def Double.divide (rnd : ℝ → Double) (x : ℝ) (d : Double) : Double :=
  match d with
  | Double.finite n => rnd (x / n)
  | Double.infinity => Double.finite 0

/-- Function `math.divide(z, norm)` of a complex value by a double, component by
component; `none` when a component of the quotient is `Infinity`. -/
def Double.divideComplex (rnd : ℝ → Double) (z : ℂ) (d : Double) : Option ℂ :=
  match Double.divide rnd z.re d, Double.divide rnd z.im d with
  | Double.finite re, Double.finite im => some (Complex.mk re im)
  | _, _ => none

/-- Method `normalize()` in doubles, every exact result being rounded by `rnd`. -/
def QubitState.normalizeDouble (rnd : ℝ → Double) (self : QubitState) : Option QubitState :=
  let norm := Double.sqrt rnd
    (Double.add rnd (Double.pow rnd (Double.abs rnd self.alpha) 2)
      (Double.pow rnd (Double.abs rnd self.beta) 2))
  match norm with
  | Double.finite n =>
    if n ≠ 0 then
      (Double.divideComplex rnd self.alpha (Double.finite n)).bind fun a =>
        (Double.divideComplex rnd self.beta (Double.finite n)).bind fun b =>
          some { alpha := a, beta := b }
    else
      some self
  | Double.infinity =>
    (Double.divideComplex rnd self.alpha Double.infinity).bind fun a =>
      (Double.divideComplex rnd self.beta Double.infinity).bind fun b =>
        some { alpha := a, beta := b }

/-- Method `constructor(alpha, beta)` over `normalizeDouble`. -/
def QubitState.constructorDouble (rnd : ℝ → Double) (alpha beta : ℂ) : Option QubitState :=
  QubitState.normalizeDouble rnd { alpha := alpha, beta := beta }

/-- Method `probability0()` in doubles. -/
def QubitState.probability0Double (rnd : ℝ → Double) (self : QubitState) : Double :=
  Double.pow rnd (Double.abs rnd self.alpha) 2

/-- Method `probability1()` in doubles. -/
def QubitState.probability1Double (rnd : ℝ → Double) (self : QubitState) : Double :=
  Double.pow rnd (Double.abs rnd self.beta) 2

/-- Sum `probability0() + probability1()` in doubles. -/
def QubitState.totalProbabilityDouble (rnd : ℝ → Double) (self : QubitState) : Double :=
  Double.add rnd (QubitState.probability0Double rnd self) (QubitState.probability1Double rnd self)

/-- The argument that `toBlochCoordinates()` passes to `Math.acos`, in doubles:
`math.abs(this.alpha)`. -/
def QubitState.acosArgumentDouble (rnd : ℝ → Double) (self : QubitState) : Double :=
  Double.abs rnd self.alpha

/-- A real number that is zero or of magnitude between `1e-150` and `1e150`. -/
def Double.InSafeRange (x : ℝ) : Prop :=
  x = 0 ∨ (1e-150 ≤ |x| ∧ |x| ≤ 1e150)

/-- A state is normalized to the tolerance of the specification when
`|alpha|² + |beta|²` is within `1e-10` of 1. -/
def QubitState.IsNormalizedWithin (s : QubitState) : Prop :=
  |Complex.abs s.alpha ^ 2 + Complex.abs s.beta ^ 2 - 1| ≤ 1e-10

/-- The amplitudes that the object `new QubitState(math.complex(19, 29), 0)` holds
after `normalize()` in IEEE doubles (`QubitState.constructorDouble_round_example`):
`alpha = 0x1.1896e5c8ffbbep-1 + 0x1.ac44a217d72c4p-1 i` and `beta = 0`,
written as exact fractions. -/
def QubitState.storedExample : QubitState :=
  { alpha := Complex.mk (2468090848214495 / 4503599627370496)
      (1883543015742641 / 2251799813685248),
    beta := 0 }

/-! ## Basic facts about normalization -/

theorem QubitState.norm_pos_of_ne_zero (a b : ℂ) (h : ¬(a = 0 ∧ b = 0)) :
    0 < Complex.abs a ^ 2 + Complex.abs b ^ 2 := by
  have ha := sq_nonneg (Complex.abs a)
  have hb := sq_nonneg (Complex.abs b)
  by_contra hcon
  have hsum : Complex.abs a ^ 2 + Complex.abs b ^ 2 = 0 := by linarith
  have ha0 : Complex.abs a ^ 2 = 0 := by linarith
  have hb0 : Complex.abs b ^ 2 = 0 := by linarith
  apply h
  constructor
  · simpa using ha0
  · simpa using hb0

theorem QubitState.constructor_of_ne_zero (a b : ℂ) (h : ¬(a = 0 ∧ b = 0)) :
    QubitState.constructor a b =
      { alpha := a / ((Real.sqrt (Complex.abs a ^ 2 + Complex.abs b ^ 2) : ℝ) : ℂ),
        beta := b / ((Real.sqrt (Complex.abs a ^ 2 + Complex.abs b ^ 2) : ℝ) : ℂ) } := by
  have hpos := QubitState.norm_pos_of_ne_zero a b h
  have hne : Real.sqrt (Complex.abs a ^ 2 + Complex.abs b ^ 2) ≠ 0 :=
    (Real.sqrt_pos.mpr hpos).ne'
  simp only [QubitState.constructor, QubitState.normalize]
  rw [if_pos hne]

theorem QubitState.constructor_zero :
    QubitState.constructor 0 0 = { alpha := 0, beta := 0 } := by
  simp [QubitState.constructor, QubitState.normalize]

theorem QubitState.constructor_prob_sum (a b : ℂ) (h : ¬(a = 0 ∧ b = 0)) :
    (QubitState.constructor a b).probability0 + (QubitState.constructor a b).probability1 = 1 := by
  have hpos := QubitState.norm_pos_of_ne_zero a b h
  rw [QubitState.constructor_of_ne_zero a b h]
  simp only [QubitState.probability0, QubitState.probability1, map_div₀, Complex.abs_ofReal,
    abs_of_nonneg (Real.sqrt_nonneg _), div_pow, Real.sq_sqrt hpos.le]
  rw [← add_div]
  exact div_self hpos.ne'

/-! ## The catalog gates preserve the norm -/

theorem QuantumGates.inv_sqrt2_sq : (1 / Real.sqrt 2) * (1 / Real.sqrt 2) = 1 / 2 := by
  have h : Real.sqrt 2 * Real.sqrt 2 = 2 := Real.mul_self_sqrt (by norm_num)
  have hne : Real.sqrt 2 ≠ 0 := by positivity
  field_simp

theorem QuantumGates.pauliX_norm (a b : ℂ) :
    Complex.abs (QuantumGates.pauliX 0 0 * a + QuantumGates.pauliX 0 1 * b) ^ 2
      + Complex.abs (QuantumGates.pauliX 1 0 * a + QuantumGates.pauliX 1 1 * b) ^ 2
      = Complex.abs a ^ 2 + Complex.abs b ^ 2 := by
  simp [QuantumGates.pauliX, add_comm]

theorem QuantumGates.pauliY_norm (a b : ℂ) :
    Complex.abs (QuantumGates.pauliY 0 0 * a + QuantumGates.pauliY 0 1 * b) ^ 2
      + Complex.abs (QuantumGates.pauliY 1 0 * a + QuantumGates.pauliY 1 1 * b) ^ 2
      = Complex.abs a ^ 2 + Complex.abs b ^ 2 := by
  simp only [QuantumGates.pauliY, Complex.sq_abs, Complex.normSq_apply]
  simp
  ring

theorem QuantumGates.pauliZ_norm (a b : ℂ) :
    Complex.abs (QuantumGates.pauliZ 0 0 * a + QuantumGates.pauliZ 0 1 * b) ^ 2
      + Complex.abs (QuantumGates.pauliZ 1 0 * a + QuantumGates.pauliZ 1 1 * b) ^ 2
      = Complex.abs a ^ 2 + Complex.abs b ^ 2 := by
  simp [QuantumGates.pauliZ]

theorem QuantumGates.hadamard_norm (a b : ℂ) :
    Complex.abs (QuantumGates.hadamard 0 0 * a + QuantumGates.hadamard 0 1 * b) ^ 2
      + Complex.abs (QuantumGates.hadamard 1 0 * a + QuantumGates.hadamard 1 1 * b) ^ 2
      = Complex.abs a ^ 2 + Complex.abs b ^ 2 := by
  have hc := QuantumGates.inv_sqrt2_sq
  simp only [QuantumGates.hadamard, Complex.sq_abs, Complex.normSq_apply]
  simp only [Matrix.cons_val_zero, Matrix.cons_val_one, Matrix.head_cons, Complex.add_re,
    Complex.add_im, Complex.mul_re, Complex.mul_im, Complex.ofReal_re, Complex.ofReal_im,
    zero_mul, sub_zero, add_zero]
  generalize 1 / Real.sqrt 2 = c at hc
  have e : (c * a.re + c * b.re) * (c * a.re + c * b.re)
      + (c * a.im + c * b.im) * (c * a.im + c * b.im)
      + ((c * a.re + -c * b.re) * (c * a.re + -c * b.re)
      + (c * a.im + -c * b.im) * (c * a.im + -c * b.im))
      = (c * c) * (2 * (a.re * a.re + a.im * a.im + (b.re * b.re + b.im * b.im))) := by ring
  rw [e, hc]; ring

theorem QuantumGates.sGate_norm (a b : ℂ) :
    Complex.abs (QuantumGates.sGate 0 0 * a + QuantumGates.sGate 0 1 * b) ^ 2
      + Complex.abs (QuantumGates.sGate 1 0 * a + QuantumGates.sGate 1 1 * b) ^ 2
      = Complex.abs a ^ 2 + Complex.abs b ^ 2 := by
  simp only [QuantumGates.sGate, Complex.sq_abs, Complex.normSq_apply]
  simp
  ring

theorem QuantumGates.tGate_norm (a b : ℂ) :
    Complex.abs (QuantumGates.tGate 0 0 * a + QuantumGates.tGate 0 1 * b) ^ 2
      + Complex.abs (QuantumGates.tGate 1 0 * a + QuantumGates.tGate 1 1 * b) ^ 2
      = Complex.abs a ^ 2 + Complex.abs b ^ 2 := by
  have hcs := Real.cos_sq_add_sin_sq (Real.pi / 4)
  simp only [QuantumGates.tGate, Complex.sq_abs, Complex.normSq_apply]
  simp only [Matrix.cons_val_zero, Matrix.cons_val_one, Matrix.head_cons, Complex.add_re,
    Complex.add_im, Complex.mul_re, Complex.mul_im, Complex.one_re, Complex.one_im,
    Complex.zero_re, Complex.zero_im, zero_mul, sub_zero, add_zero, one_mul, zero_add, sub_self]
  generalize Real.cos (Real.pi / 4) = c at hcs
  generalize Real.sin (Real.pi / 4) = d at hcs
  have e : (c * b.re - d * b.im) * (c * b.re - d * b.im)
      + (c * b.im + d * b.re) * (c * b.im + d * b.re)
      = (c ^ 2 + d ^ 2) * (b.re * b.re + b.im * b.im) := by ring
  rw [add_assoc, e, hcs]; ring

theorem QuantumGates.catalog_norm (G : Gate) (hG : G ∈ QuantumGates.catalog) (a b : ℂ) :
    Complex.abs (G 0 0 * a + G 0 1 * b) ^ 2 + Complex.abs (G 1 0 * a + G 1 1 * b) ^ 2
      = Complex.abs a ^ 2 + Complex.abs b ^ 2 := by
  simp only [QuantumGates.catalog, List.mem_cons, List.mem_singleton, List.not_mem_nil,
    or_false] at hG
  rcases hG with rfl | rfl | rfl | rfl | rfl | rfl
  · exact QuantumGates.pauliX_norm a b
  · exact QuantumGates.pauliY_norm a b
  · exact QuantumGates.pauliZ_norm a b
  · exact QuantumGates.hadamard_norm a b
  · exact QuantumGates.sGate_norm a b
  · exact QuantumGates.tGate_norm a b

theorem QuantumGates.applyGate_of_norm_preserving (G : Gate) (s : QubitState)
    (hG : Complex.abs (G 0 0 * s.alpha + G 0 1 * s.beta) ^ 2
        + Complex.abs (G 1 0 * s.alpha + G 1 1 * s.beta) ^ 2
        = Complex.abs s.alpha ^ 2 + Complex.abs s.beta ^ 2)
    (hs : s.IsNormalized) :
    QuantumGates.applyGate G s =
      { alpha := G 0 0 * s.alpha + G 0 1 * s.beta,
        beta := G 1 0 * s.alpha + G 1 1 * s.beta } := by
  unfold QubitState.IsNormalized at hs
  simp only [QuantumGates.applyGate, QubitState.constructor, QubitState.normalize]
  rw [hG, hs]
  simp

/-! ## Facts about constructed states and Bloch coordinates -/

theorem QubitState.abs_alpha_le_one_of_normalized (s : QubitState) (hs : s.IsNormalized) :
    Complex.abs s.alpha ≤ 1 := by
  unfold QubitState.IsNormalized at hs
  have hb := sq_nonneg (Complex.abs s.beta)
  have ha : 0 ≤ Complex.abs s.alpha := Complex.abs.nonneg _
  nlinarith

theorem QubitState.toBlochCoordinates_of_abs_le_one (s : QubitState)
    (h : Complex.abs s.alpha ≤ 1) :
    s.toBlochCoordinates = some
      { x := Real.sin (2 * Real.arccos (Complex.abs s.alpha))
          * Real.cos (if Complex.abs s.beta > 1e-10 then
              Complex.arg s.beta - Complex.arg s.alpha else 0),
        y := Real.sin (2 * Real.arccos (Complex.abs s.alpha))
          * Real.sin (if Complex.abs s.beta > 1e-10 then
              Complex.arg s.beta - Complex.arg s.alpha else 0),
        z := Real.cos (2 * Real.arccos (Complex.abs s.alpha)),
        theta := 2 * Real.arccos (Complex.abs s.alpha),
        phi := if Complex.abs s.beta > 1e-10 then
              Complex.arg s.beta - Complex.arg s.alpha else 0 } := by
  have h0 : -1 ≤ Complex.abs s.alpha := by
    have := Complex.abs.nonneg s.alpha
    linarith
  simp only [QubitState.toBlochCoordinates, Math.acos, if_pos (And.intro h0 h), Option.map_some']

theorem QubitState.toBlochCoordinates_eq_none (s : QubitState)
    (h : ¬ Complex.abs s.alpha ≤ 1) : s.toBlochCoordinates = none := by
  have hn : ¬(-1 ≤ Complex.abs s.alpha ∧ Complex.abs s.alpha ≤ 1) := fun hc => h hc.2
  simp only [QubitState.toBlochCoordinates, Math.acos, if_neg hn, Option.map_none']

/-! ## Claims -/

/-! ### The constructor within the range of doubles -/

theorem Double.underflowThreshold_pos : 0 < Double.underflowThreshold := by
  unfold Double.underflowThreshold; positivity
theorem Double.underflowThreshold_lt : Double.underflowThreshold < 1e-323 := by
  unfold Double.underflowThreshold; norm_num
theorem Double.underflowThreshold_gt : 1e-324 < Double.underflowThreshold := by
  unfold Double.underflowThreshold; norm_num
theorem Double.overflowThreshold_gt : 1e308 < Double.overflowThreshold := by
  unfold Double.overflowThreshold; norm_num
theorem Double.overflowThreshold_lt : Double.overflowThreshold < 1e309 := by
  unfold Double.overflowThreshold; norm_num

theorem Double.ofReal_zero : Double.ofReal 0 = Double.finite 0 := by
  have h1 : ¬ (Double.overflowThreshold ≤ |(0 : ℝ)|) := by
    have := Double.overflowThreshold_gt
    rw [abs_zero]; intro h
    have : (0:ℝ) < 1e308 := by norm_num
    linarith
  have h2 : |(0 : ℝ)| ≤ Double.underflowThreshold := by
    rw [abs_zero]; exact Double.underflowThreshold_pos.le
  simp only [Double.ofReal, if_neg h1, if_pos h2]

theorem Double.ofReal_of_between (x : ℝ) (h1 : 1e-323 ≤ |x|) (h2 : |x| ≤ 1e308) :
    Double.ofReal x = Double.finite x := by
  have ho : ¬ (Double.overflowThreshold ≤ |x|) := by
    have := Double.overflowThreshold_gt
    intro h; linarith
  have hu : ¬ (|x| ≤ Double.underflowThreshold) := by
    have := Double.underflowThreshold_lt
    intro h; linarith
  simp only [Double.ofReal, if_neg ho, if_neg hu]

theorem Double.ofReal_of_zero_or_between (x : ℝ) (h : x = 0 ∨ (1e-323 ≤ |x| ∧ |x| ≤ 1e308)) :
    Double.ofReal x = Double.finite x := by
  rcases h with rfl | ⟨h1, h2⟩
  · exact Double.ofReal_zero
  · exact Double.ofReal_of_between x h1 h2

theorem Double.ofReal_of_huge (x : ℝ) (h : 1e309 ≤ |x|) : Double.ofReal x = Double.infinity := by
  have ho : Double.overflowThreshold ≤ |x| := by
    have := Double.overflowThreshold_lt
    linarith
  simp only [Double.ofReal, if_pos ho]

theorem Double.ofReal_of_tiny (x : ℝ) (h : |x| ≤ 1e-324) : Double.ofReal x = Double.finite 0 := by
  have ho : ¬ (Double.overflowThreshold ≤ |x|) := by
    have := Double.overflowThreshold_gt
    intro h'
    have : (1e-324 : ℝ) < 1e308 := by norm_num
    linarith
  have hu : |x| ≤ Double.underflowThreshold := by
    have := Double.underflowThreshold_gt
    linarith
  simp only [Double.ofReal, if_neg ho, if_pos hu]

/-- For an exact result in `[0, 1]` the double is finite, not above it, and
below it by at most the underflow threshold. -/
theorem Double.ofReal_unit (x : ℝ) (h0 : 0 ≤ x) (h1 : x ≤ 1) :
    ∃ y : ℝ, Double.ofReal x = Double.finite y ∧ 0 ≤ y ∧ y ≤ x ∧ x - y ≤ 1e-323 := by
  have ho : ¬ (Double.overflowThreshold ≤ |x|) := by
    have := Double.overflowThreshold_gt
    rw [abs_of_nonneg h0]
    intro h'
    have : (1 : ℝ) < 1e308 := by norm_num
    linarith
  by_cases hu : |x| ≤ Double.underflowThreshold
  · refine ⟨0, ?_, le_refl _, h0, ?_⟩
    · simp only [Double.ofReal, if_neg ho, if_pos hu]
    · rw [abs_of_nonneg h0] at hu
      have := Double.underflowThreshold_lt
      linarith
  · refine ⟨x, ?_, h0, le_refl _, ?_⟩
    · simp only [Double.ofReal, if_neg ho, if_neg hu]
    · norm_num


theorem Double.pow_abs_huge :
    Double.pow Double.ofReal (Double.abs Double.ofReal ((1e200 : ℝ) : ℂ)) 2 = Double.infinity := by
  have h1 : Double.ofReal (1e200 : ℝ) = Double.finite 1e200 :=
    Double.ofReal_of_between _ (by norm_num) (by norm_num)
  have h2 : Double.ofReal ((1e200 : ℝ) ^ 2) = Double.infinity :=
    Double.ofReal_of_huge _ (by norm_num)
  simp only [Double.abs, Complex.abs_ofReal, abs_of_pos (by norm_num : (0 : ℝ) < 1e200), h1,
    Double.pow, h2]

theorem Double.pow_abs_tiny :
    Double.pow Double.ofReal (Double.abs Double.ofReal ((1e-200 : ℝ) : ℂ)) 2 = Double.finite 0 := by
  have h1 : Double.ofReal (1e-200 : ℝ) = Double.finite 1e-200 :=
    Double.ofReal_of_between _ (by rw [abs_of_pos (by norm_num)]; norm_num)
      (by rw [abs_of_pos (by norm_num)]; norm_num)
  have h2 : Double.ofReal ((1e-200 : ℝ) ^ 2) = Double.finite 0 :=
    Double.ofReal_of_tiny _ (by rw [abs_of_pos (by norm_num)]; norm_num)
  simp only [Double.abs, Complex.abs_ofReal, abs_of_pos (by norm_num : (0 : ℝ) < 1e-200), h1,
    Double.pow, h2]

theorem Double.pow_abs_zero : Double.pow Double.ofReal (Double.abs Double.ofReal 0) 2 = Double.finite 0 := by
  simp only [Double.abs, map_zero, Double.ofReal_zero, Double.pow]
  rw [zero_pow (by norm_num), Double.ofReal_zero]

theorem Double.add_zero_zero :
    Double.add Double.ofReal (Double.finite 0) (Double.finite 0) = Double.finite 0 := by
  simp only [Double.add, add_zero, Double.ofReal_zero]

/-- C1, as stated, fails on doubles: for the amplitudes `(1e200, 1e200)`, not both
zero, the squares overflow, the norm is `Infinity`, the constructor stores
`(0, 0)` and the total probability is 0; for `(1e-200, 1e-200)` the squares
underflow, the norm is 0, the amplitudes stay as they are and the total
probability is again 0. -/
theorem C1_constructor_overflow_counterexample :
    ¬((((1e200 : ℝ) : ℂ)) = 0 ∧ (((1e200 : ℝ) : ℂ)) = 0) ∧
    QubitState.constructorDouble Double.ofReal ((1e200 : ℝ) : ℂ) ((1e200 : ℝ) : ℂ)
      = some { alpha := 0, beta := 0 } ∧
    QubitState.totalProbabilityDouble Double.ofReal { alpha := 0, beta := 0 } = Double.finite 0 ∧
    ¬((((1e-200 : ℝ) : ℂ)) = 0 ∧ (((1e-200 : ℝ) : ℂ)) = 0) ∧
    QubitState.constructorDouble Double.ofReal ((1e-200 : ℝ) : ℂ) ((1e-200 : ℝ) : ℂ)
      = some { alpha := ((1e-200 : ℝ) : ℂ), beta := ((1e-200 : ℝ) : ℂ) } ∧
    QubitState.totalProbabilityDouble Double.ofReal
      { alpha := ((1e-200 : ℝ) : ℂ), beta := ((1e-200 : ℝ) : ℂ) } = Double.finite 0 := by
  have hz : Complex.mk 0 0 = 0 := rfl
  refine ⟨?_, ?_, ?_, ?_, ?_, ?_⟩
  · rintro ⟨h, _⟩
    have := Complex.ofReal_eq_zero.mp h
    norm_num at this
  · simp only [QubitState.constructorDouble, QubitState.normalizeDouble, Double.pow_abs_huge,
      Double.add, Double.sqrt, Double.divideComplex, Double.divide, Option.bind, hz]
  · simp only [QubitState.totalProbabilityDouble, QubitState.probability0Double,
    QubitState.probability1Double, Double.pow_abs_zero, Double.add_zero_zero]
  · rintro ⟨h, _⟩
    have := Complex.ofReal_eq_zero.mp h
    norm_num at this
  · simp only [QubitState.constructorDouble, QubitState.normalizeDouble, Double.pow_abs_tiny,
      Double.add_zero_zero, Double.sqrt, Real.sqrt_zero, Double.ofReal_zero, ne_eq,
      not_true_eq_false, if_false]
  · simp only [QubitState.totalProbabilityDouble, QubitState.probability0Double,
    QubitState.probability1Double, Double.pow_abs_tiny, Double.add_zero_zero]


theorem Double.abs_of_safe (z : ℂ) (hr : Double.InSafeRange z.re) (hi : Double.InSafeRange z.im) :
    Complex.abs z = 0 ∨ (1e-150 ≤ Complex.abs z ∧ Complex.abs z ≤ 2e150) := by
  have h1 := Complex.abs_re_le_abs z
  have h2 := Complex.abs_im_le_abs z
  have h3 := Complex.abs_le_abs_re_add_abs_im z
  have hre : |z.re| ≤ 1e150 := by
    rcases hr with h | ⟨_, h⟩
    · rw [h, abs_zero]; norm_num
    · exact h
  have him : |z.im| ≤ 1e150 := by
    rcases hi with h | ⟨_, h⟩
    · rw [h, abs_zero]; norm_num
    · exact h
  have hup : Complex.abs z ≤ 2e150 := by
    have e : (1e150 : ℝ) + 1e150 = 2e150 := by norm_num
    linarith
  rcases hr with hr0 | ⟨hr1, _⟩
  · rcases hi with hi0 | ⟨hi1, _⟩
    · left
      have hz : z = 0 := Complex.ext hr0 hi0
      rw [hz, map_zero]
    · right
      exact ⟨le_trans hi1 h2, hup⟩
  · right
    exact ⟨le_trans hr1 h1, hup⟩

theorem Double.divide_of_safe (x n : ℝ) (hx : Double.InSafeRange x) (hn1 : |x| ≤ n)
    (hn2 : n ≤ 3e150) (hn0 : 0 < n) :
    Double.divide Double.ofReal x (Double.finite n) = Double.finite (x / n) := by
  unfold Double.divide
  simp only []
  apply Double.ofReal_of_zero_or_between
  rcases hx with rfl | ⟨h1, _⟩
  · left; simp
  · right
    rw [abs_div, abs_of_pos hn0]
    constructor
    · rw [le_div_iff₀ hn0]
      have : (1e-323 : ℝ) * n ≤ 1e-323 * 3e150 :=
        mul_le_mul_of_nonneg_left hn2 (by norm_num)
      have e : (1e-323 : ℝ) * 3e150 ≤ 1e-150 := by norm_num
      linarith
    · have : |x| / n ≤ 1 := (div_le_one hn0).mpr hn1
      have e : (1 : ℝ) ≤ 1e308 := by norm_num
      linarith

theorem Double.divideComplex_of_safe (z : ℂ) (n : ℝ) (hr : Double.InSafeRange z.re)
    (hi : Double.InSafeRange z.im) (hn1 : Complex.abs z ≤ n) (hn2 : n ≤ 3e150) (hn0 : 0 < n) :
    Double.divideComplex Double.ofReal z (Double.finite n) = some (z / (n : ℂ)) := by
  have h1 := le_trans (Complex.abs_re_le_abs z) hn1
  have h2 := le_trans (Complex.abs_im_le_abs z) hn1
  have e : z / (n : ℂ) = Complex.mk (z.re / n) (z.im / n) := by
    apply Complex.ext
    · rw [Complex.div_ofReal_re]
    · rw [Complex.div_ofReal_im]
  simp only [Double.divideComplex, Double.divide_of_safe z.re n hr h1 hn2 hn0,
    Double.divide_of_safe z.im n hi h2 hn2 hn0, e]


theorem Double.pow_abs_of_safe (A : ℝ) (hA0 : 0 ≤ A)
    (hA : A = 0 ∨ (1e-150 ≤ A ∧ A ≤ 2e150)) :
    Double.pow Double.ofReal (Double.ofReal A) 2 = Double.finite (A ^ 2) := by
  have h1 : Double.ofReal A = Double.finite A := by
    apply Double.ofReal_of_zero_or_between
    rcases hA with h | ⟨h1, h2⟩
    · left; exact h
    · right
      rw [abs_of_nonneg hA0]
      constructor
      · have : (1e-323 : ℝ) ≤ 1e-150 := by norm_num
        linarith
      · have : (2e150 : ℝ) ≤ 1e308 := by norm_num
        linarith
  rw [h1]
  simp only [Double.pow]
  apply Double.ofReal_of_zero_or_between
  rcases hA with h | ⟨h1, h2⟩
  · left; rw [h]; norm_num
  · right
    rw [abs_of_nonneg (sq_nonneg A)]
    constructor
    · have : (1e-150 : ℝ) ^ 2 ≤ A ^ 2 := pow_le_pow_left₀ (by norm_num) h1 2
      have e : (1e-323 : ℝ) ≤ (1e-150 : ℝ) ^ 2 := by norm_num
      linarith
    · have : A ^ 2 ≤ (2e150 : ℝ) ^ 2 := pow_le_pow_left₀ hA0 h2 2
      have e : (2e150 : ℝ) ^ 2 ≤ 1e308 := by norm_num
      linarith

/-- Bounds on the norm of a pair of amplitudes with components in the safe range. -/
theorem Double.norm_of_safe (A B : ℝ) (hA0 : 0 ≤ A) (hB0 : 0 ≤ B)
    (hA : A = 0 ∨ (1e-150 ≤ A ∧ A ≤ 2e150)) (hB : B = 0 ∨ (1e-150 ≤ B ∧ B ≤ 2e150))
    (hpos : 0 < A ^ 2 + B ^ 2) :
    (1e-300 ≤ A ^ 2 + B ^ 2 ∧ A ^ 2 + B ^ 2 ≤ 8e300) ∧
    (1e-150 ≤ Real.sqrt (A ^ 2 + B ^ 2) ∧ Real.sqrt (A ^ 2 + B ^ 2) ≤ 3e150) ∧
    A ≤ Real.sqrt (A ^ 2 + B ^ 2) ∧ B ≤ Real.sqrt (A ^ 2 + B ^ 2) := by
  have hA2 : A ^ 2 ≤ 4e300 := by
    rcases hA with h | ⟨_, h⟩
    · rw [h]; norm_num
    · have : A ^ 2 ≤ (2e150 : ℝ) ^ 2 := pow_le_pow_left₀ hA0 h 2
      have e : (2e150 : ℝ) ^ 2 = 4e300 := by norm_num
      linarith
  have hB2 : B ^ 2 ≤ 4e300 := by
    rcases hB with h | ⟨_, h⟩
    · rw [h]; norm_num
    · have : B ^ 2 ≤ (2e150 : ℝ) ^ 2 := pow_le_pow_left₀ hB0 h 2
      have e : (2e150 : ℝ) ^ 2 = 4e300 := by norm_num
      linarith
  have hlow : 1e-300 ≤ A ^ 2 + B ^ 2 := by
    have e : (1e-150 : ℝ) ^ 2 = 1e-300 := by norm_num
    rcases hA with hA | ⟨hA, _⟩
    · rcases hB with hB | ⟨hB, _⟩
      · rw [hA, hB] at hpos
        norm_num at hpos
      · have : (1e-150 : ℝ) ^ 2 ≤ B ^ 2 := pow_le_pow_left₀ (by norm_num) hB 2
        have := sq_nonneg A
        linarith
    · have : (1e-150 : ℝ) ^ 2 ≤ A ^ 2 := pow_le_pow_left₀ (by norm_num) hA 2
      have := sq_nonneg B
      linarith
  have hup : A ^ 2 + B ^ 2 ≤ 8e300 := by
    have e : (4e300 : ℝ) + 4e300 = 8e300 := by norm_num
    linarith
  refine ⟨⟨hlow, hup⟩, ⟨?_, ?_⟩, ?_, ?_⟩
  · apply Real.le_sqrt_of_sq_le
    have e : (1e-150 : ℝ) ^ 2 = 1e-300 := by norm_num
    linarith
  · rw [Real.sqrt_le_left (by norm_num)]
    have e : (8e300 : ℝ) ≤ (3e150 : ℝ) ^ 2 := by norm_num
    linarith
  · apply Real.le_sqrt_of_sq_le
    have := sq_nonneg B
    linarith
  · apply Real.le_sqrt_of_sq_le
    have := sq_nonneg A
    linarith


theorem Double.ofReal_ratio (A n : ℝ) (hA0 : 0 ≤ A)
    (hA : A = 0 ∨ (1e-150 ≤ A ∧ A ≤ 2e150)) (hAn : A ≤ n) (hn2 : n ≤ 3e150) (hn0 : 0 < n) :
    Double.ofReal (A / n) = Double.finite (A / n) := by
  apply Double.ofReal_of_zero_or_between
  rcases hA with rfl | ⟨h1, _⟩
  · left; simp
  · right
    rw [abs_of_nonneg (div_nonneg hA0 hn0.le)]
    constructor
    · rw [le_div_iff₀ hn0]
      have : (1e-323 : ℝ) * n ≤ 1e-323 * 3e150 :=
        mul_le_mul_of_nonneg_left hn2 (by norm_num)
      have e : (1e-323 : ℝ) * 3e150 ≤ 1e-150 := by norm_num
      linarith
    · have : A / n ≤ 1 := (div_le_one hn0).mpr hAn
      have e : (1 : ℝ) ≤ 1e308 := by norm_num
      linarith

theorem Double.total_of_unit (a b : ℝ) (ha0 : 0 ≤ a) (hb0 : 0 ≤ b) (ha1 : a ≤ 1) (hb1 : b ≤ 1)
    (hone : a ^ 2 + b ^ 2 = 1) (hfa : Double.ofReal a = Double.finite a)
    (hfb : Double.ofReal b = Double.finite b) :
    ∃ t : ℝ,
      Double.add Double.ofReal (Double.pow Double.ofReal (Double.ofReal a) 2)
          (Double.pow Double.ofReal (Double.ofReal b) 2)
        = Double.finite t ∧ |t - 1| ≤ 1e-9 := by
  obtain ⟨y0, hy0, hy0a, hy0b, hy0c⟩ :=
    Double.ofReal_unit (a ^ 2) (sq_nonneg a) (pow_le_one₀ ha0 ha1)
  obtain ⟨y1, hy1, hy1a, hy1b, hy1c⟩ :=
    Double.ofReal_unit (b ^ 2) (sq_nonneg b) (pow_le_one₀ hb0 hb1)
  have hsmall : (1e-323 : ℝ) + 1e-323 ≤ 1e-9 := by norm_num
  have htot : Double.ofReal (y0 + y1) = Double.finite (y0 + y1) := by
    apply Double.ofReal_of_between
    · rw [abs_of_nonneg (by linarith)]
      have : (1e-323 : ℝ) ≤ 1 - (1e-323 + 1e-323) := by norm_num
      linarith
    · rw [abs_of_nonneg (by linarith)]
      have : (1 : ℝ) ≤ 1e308 := by norm_num
      linarith
  refine ⟨y0 + y1, ?_, ?_⟩
  · simp only [hfa, hfb, Double.pow, hy0, hy1, Double.add, htot]
  · rw [abs_le]
    constructor <;> linarith

/-- C1, amended: for every pair of amplitudes, not both zero, whose four real
components are each zero or of magnitude between `1e-150` and `1e150`, no
square overflows or underflows, the constructor stores the amplitudes divided
by their norm, and `probability0() + probability1()` is within `1e-9` of 1. -/
theorem C1_constructor_total_probability_in_range (alpha beta : ℂ)
    (h : ¬(alpha = 0 ∧ beta = 0))
    (h1 : Double.InSafeRange alpha.re) (h2 : Double.InSafeRange alpha.im)
    (h3 : Double.InSafeRange beta.re) (h4 : Double.InSafeRange beta.im) :
    ∃ t : ℝ,
      QubitState.constructorDouble Double.ofReal alpha beta = some (QubitState.constructor alpha beta) ∧
      QubitState.totalProbabilityDouble Double.ofReal (QubitState.constructor alpha beta)
        = Double.finite t ∧
      |t - 1| ≤ 1e-9 := by
  have hA0 : 0 ≤ Complex.abs alpha := Complex.abs.nonneg _
  have hB0 : 0 ≤ Complex.abs beta := Complex.abs.nonneg _
  have hA := Double.abs_of_safe alpha h1 h2
  have hB := Double.abs_of_safe beta h3 h4
  have hpos := QubitState.norm_pos_of_ne_zero alpha beta h
  obtain ⟨⟨hS1, hS2⟩, ⟨hn1, hn2⟩, hAn, hBn⟩ :=
    Double.norm_of_safe (Complex.abs alpha) (Complex.abs beta) hA0 hB0 hA hB hpos
  have hn0 : 0 < Real.sqrt (Complex.abs alpha ^ 2 + Complex.abs beta ^ 2) :=
    Real.sqrt_pos.mpr hpos
  have hSum : Double.ofReal (Complex.abs alpha ^ 2 + Complex.abs beta ^ 2)
      = Double.finite (Complex.abs alpha ^ 2 + Complex.abs beta ^ 2) := by
    apply Double.ofReal_of_between
    · rw [abs_of_pos hpos]
      have : (1e-323 : ℝ) ≤ 1e-300 := by norm_num
      linarith
    · rw [abs_of_pos hpos]
      have : (8e300 : ℝ) ≤ 1e308 := by norm_num
      linarith
  have hSqrt : Double.ofReal (Real.sqrt (Complex.abs alpha ^ 2 + Complex.abs beta ^ 2))
      = Double.finite (Real.sqrt (Complex.abs alpha ^ 2 + Complex.abs beta ^ 2)) := by
    apply Double.ofReal_of_between
    · rw [abs_of_pos hn0]
      have : (1e-323 : ℝ) ≤ 1e-150 := by norm_num
      linarith
    · rw [abs_of_pos hn0]
      have : (3e150 : ℝ) ≤ 1e308 := by norm_num
      linarith
  have hcons : QubitState.constructorDouble Double.ofReal alpha beta
      = some (QubitState.constructor alpha beta) := by
    rw [QubitState.constructor_of_ne_zero alpha beta h]
    simp only [QubitState.constructorDouble, QubitState.normalizeDouble, Double.abs,
      Double.pow_abs_of_safe _ hA0 hA, Double.pow_abs_of_safe _ hB0 hB, Double.add, hSum,
      Double.sqrt, hSqrt, ne_eq, hn0.ne', not_false_eq_true, if_true,
      Double.divideComplex_of_safe alpha _ h1 h2 hAn hn2 hn0,
      Double.divideComplex_of_safe beta _ h3 h4 hBn hn2 hn0, Option.some_bind]
  have ha : Complex.abs (alpha / ((Real.sqrt (Complex.abs alpha ^ 2 + Complex.abs beta ^ 2)
      : ℝ) : ℂ)) = Complex.abs alpha / Real.sqrt (Complex.abs alpha ^ 2 + Complex.abs beta ^ 2) := by
    rw [map_div₀, Complex.abs_ofReal, abs_of_pos hn0]
  have hb : Complex.abs (beta / ((Real.sqrt (Complex.abs alpha ^ 2 + Complex.abs beta ^ 2)
      : ℝ) : ℂ)) = Complex.abs beta / Real.sqrt (Complex.abs alpha ^ 2 + Complex.abs beta ^ 2) := by
    rw [map_div₀, Complex.abs_ofReal, abs_of_pos hn0]
  have hone : (Complex.abs alpha / Real.sqrt (Complex.abs alpha ^ 2 + Complex.abs beta ^ 2)) ^ 2
      + (Complex.abs beta / Real.sqrt (Complex.abs alpha ^ 2 + Complex.abs beta ^ 2)) ^ 2
      = 1 := by
    rw [div_pow, div_pow, ← add_div, Real.sq_sqrt hpos.le]
    exact div_self hpos.ne'
  obtain ⟨t, ht, htb⟩ := Double.total_of_unit _ _ (div_nonneg hA0 hn0.le)
    (div_nonneg hB0 hn0.le) ((div_le_one hn0).mpr hAn) ((div_le_one hn0).mpr hBn) hone
    (Double.ofReal_ratio _ _ hA0 hA hAn hn2 hn0) (Double.ofReal_ratio _ _ hB0 hB hBn hn2 hn0)
  refine ⟨t, hcons, ?_, htb⟩
  rw [QubitState.constructor_of_ne_zero alpha beta h]
  simp only [QubitState.totalProbabilityDouble, QubitState.probability0Double,
    QubitState.probability1Double, Double.abs, ha, hb]
  exact ht

/-- Witness of the amended C1 at the amplitudes `(3, 4i)`. -/
theorem C1_constructor_total_probability_in_range_witness :
    ¬((3 : ℂ) = 0 ∧ (4 * Complex.I : ℂ) = 0) ∧
    Double.InSafeRange (3 : ℂ).re ∧ Double.InSafeRange (3 : ℂ).im ∧
    Double.InSafeRange (4 * Complex.I : ℂ).re ∧ Double.InSafeRange (4 * Complex.I : ℂ).im ∧
    ∃ t : ℝ,
      QubitState.constructorDouble Double.ofReal 3 (4 * Complex.I)
        = some (QubitState.constructor 3 (4 * Complex.I)) ∧
      QubitState.totalProbabilityDouble Double.ofReal (QubitState.constructor 3 (4 * Complex.I))
        = Double.finite t ∧
      |t - 1| ≤ 1e-9 :=
  have hne : ¬((3 : ℂ) = 0 ∧ (4 * Complex.I : ℂ) = 0) := by norm_num
  have h1 : Double.InSafeRange (3 : ℂ).re := by
    right
    simp only [Complex.re_ofNat]
    rw [abs_of_pos (by norm_num)]
    constructor <;> norm_num
  have h2 : Double.InSafeRange (3 : ℂ).im := by
    left
    simp
  have h3 : Double.InSafeRange (4 * Complex.I : ℂ).re := by
    left
    simp
  have h4 : Double.InSafeRange (4 * Complex.I : ℂ).im := by
    right
    have e : (4 * Complex.I : ℂ).im = 4 := by simp
    rw [e, abs_of_pos (by norm_num)]
    constructor <;> norm_num
  ⟨hne, h1, h2, h3, h4,
   C1_constructor_total_probability_in_range 3 (4 * Complex.I) hne h1 h2 h3 h4⟩

/-! ### The constructor in rounded doubles -/

theorem Double.nearestEven_eq (y : ℝ) (m : ℤ) (h : |y - m| < 1 / 2) :
    Double.nearestEven y = m := by
  rw [abs_lt] at h
  obtain ⟨h1, h2⟩ := h
  by_cases hy : (m : ℝ) ≤ y
  · have hf : ⌊y⌋ = m := by
      rw [Int.floor_eq_iff]; constructor
      · exact hy
      · linarith
    unfold Double.nearestEven
    rw [hf, if_pos (by linarith)]
  · have hf : ⌊y⌋ = m - 1 := by
      rw [Int.floor_eq_iff]; push_cast; constructor
      · linarith
      · linarith
    unfold Double.nearestEven
    rw [hf]
    push_cast
    rw [if_neg (by linarith), if_pos (by linarith)]
    ring

theorem Double.ulpExponent_eq (x : ℝ) (k : ℤ) (hk : -1074 ≤ k)
    (h1 : (2 : ℝ) ^ (k + 52) ≤ |x|) (h2 : |x| < (2 : ℝ) ^ (k + 53)) :
    Double.ulpExponent x = k := by
  have hpos : 0 < |x| := lt_of_lt_of_le (by positivity) h1
  have hl : Int.log 2 |x| = k + 52 := by
    have a1 : k + 52 ≤ Int.log 2 |x| :=
      (Int.zpow_le_iff_le_log (by norm_num) hpos).mp (by exact_mod_cast h1)
    have a2 : Int.log 2 |x| < k + 53 :=
      (Int.lt_zpow_iff_log_lt (by norm_num) hpos).mp (by exact_mod_cast h2)
    omega
  unfold Double.ulpExponent
  rw [hl]
  simp only [add_sub_cancel_right]
  exact max_eq_left hk

/-- The rounding of `x` is `m * 2 ^ k` when `k` is the exponent of the unit in the
last place around `x` and `m` is within half a unit of `x / 2 ^ k`. -/
theorem Double.round_eq (x : ℝ) (k m : ℤ) (hk : -1074 ≤ k)
    (h1 : (2 : ℝ) ^ (k + 52) ≤ |x|) (h2 : |x| < (2 : ℝ) ^ (k + 53))
    (hm : |x / 2 ^ k - m| < 1 / 2) (hfin : |(m : ℝ) * 2 ^ k| < 2 ^ (1024 : ℤ)) :
    Double.round x = Double.finite (m * 2 ^ k) := by
  unfold Double.round
  simp only [Double.ulpExponent_eq x k hk h1 h2, Double.nearestEven_eq _ m hm]
  rw [if_neg (not_le.mpr hfin)]

theorem Double.round_zero : Double.round 0 = Double.finite 0 := by
  have h : Double.nearestEven (0 / 2 ^ Double.ulpExponent 0) = 0 := by
    apply Double.nearestEven_eq
    simp
  unfold Double.round
  simp only [h]
  norm_num

/-- Rounding of a positive exact result. -/
theorem Double.round_pos_eq (x : ℝ) (k m : ℤ) (hk : -1074 ≤ k) (hm0 : 1 ≤ m)
    (h1 : (2 : ℝ) ^ (k + 52) ≤ x) (h2 : x < (2 : ℝ) ^ (k + 53))
    (h3 : ((m : ℝ) - 1 / 2) * 2 ^ k < x) (h4 : x < ((m : ℝ) + 1 / 2) * 2 ^ k)
    (hfin : (m : ℝ) * 2 ^ k < 2 ^ (1024 : ℤ)) :
    Double.round x = Double.finite (m * 2 ^ k) := by
  have hm1 : (1 : ℝ) ≤ m := by exact_mod_cast hm0
  have hkpos : (0 : ℝ) < 2 ^ k := by positivity
  have hx0 : 0 ≤ x := le_trans (by positivity) h1
  apply Double.round_eq _ k m hk
  · rw [abs_of_nonneg hx0]; exact h1
  · rw [abs_of_nonneg hx0]; exact h2
  · rw [abs_lt]; constructor
    · rw [lt_sub_iff_add_lt, lt_div_iff₀ hkpos]; linarith
    · rw [sub_lt_iff_lt_add, div_lt_iff₀ hkpos]; linarith
  · rw [abs_of_nonneg (by positivity)]; exact hfin

/-- Rounding of a positive square root, with the bounds stated on the squares. -/
theorem Double.round_sqrt_eq (v : ℝ) (k m : ℤ) (hk : -1074 ≤ k) (hm0 : 1 ≤ m)
    (h1 : ((2 : ℝ) ^ (k + 52)) ^ 2 ≤ v) (h2 : v < ((2 : ℝ) ^ (k + 53)) ^ 2)
    (h3 : (((m : ℝ) - 1 / 2) * 2 ^ k) ^ 2 < v) (h4 : v < (((m : ℝ) + 1 / 2) * 2 ^ k) ^ 2)
    (hfin : (m : ℝ) * 2 ^ k < 2 ^ (1024 : ℤ)) :
    Double.round (Real.sqrt v) = Double.finite (m * 2 ^ k) := by
  have hm1 : (1 : ℝ) ≤ m := by exact_mod_cast hm0
  have hkpos : (0 : ℝ) < 2 ^ k := by positivity
  apply Double.round_pos_eq _ k m hk hm0
  · exact Real.le_sqrt_of_sq_le h1
  · rw [Real.sqrt_lt' (by positivity)]; exact h2
  · exact Real.lt_sqrt_of_sq_lt h3
  · rw [Real.sqrt_lt' (by positivity)]; exact h4
  · exact hfin

/-- The double `math.abs(19 + 29i)`, that is `Math.sqrt(1202)`:
`0x1.155be5aa796bcp+5`. -/
theorem Double.round_sqrt_1202 :
    Double.round (Real.sqrt 1202) = Double.finite (4879350657160892 * 2 ^ (-47 : ℤ)) := by
  have h := Double.round_sqrt_eq 1202 (-47) 4879350657160892 (by norm_num) (by norm_num)
    (by norm_num) (by norm_num) (by norm_num) (by norm_num) (by norm_num)
  simpa using h

/-- Its square in doubles, just below 1202: `0x1.2c7ffffffffffp+10`. -/
theorem Double.round_sq_example :
    Double.round ((4879350657160892 * 2 ^ (-47 : ℤ)) ^ 2)
      = Double.finite (5286451906347007 * 2 ^ (-42 : ℤ)) := by
  have h := Double.round_pos_eq ((4879350657160892 * 2 ^ (-47 : ℤ)) ^ 2) (-42) 5286451906347007
    (by norm_num) (by norm_num)
    (by norm_num) (by norm_num) (by norm_num) (by norm_num) (by norm_num)
  simpa using h

theorem Double.round_sum_example :
    Double.round (5286451906347007 * 2 ^ (-42 : ℤ) + 0)
      = Double.finite (5286451906347007 * 2 ^ (-42 : ℤ)) := by
  have h := Double.round_pos_eq (5286451906347007 * 2 ^ (-42 : ℤ) + 0) (-42) 5286451906347007
    (by norm_num) (by norm_num)
    (by norm_num) (by norm_num) (by norm_num) (by norm_num) (by norm_num)
  simpa using h

/-- The norm in doubles: the square root of that sum is again `0x1.155be5aa796bcp+5`. -/
theorem Double.round_sqrt_example :
    Double.round (Real.sqrt (5286451906347007 * 2 ^ (-42 : ℤ)))
      = Double.finite (4879350657160892 * 2 ^ (-47 : ℤ)) := by
  have h := Double.round_sqrt_eq (5286451906347007 * 2 ^ (-42 : ℤ)) (-47) 4879350657160892
    (by norm_num) (by norm_num)
    (by norm_num) (by norm_num) (by norm_num) (by norm_num) (by norm_num)
  simpa using h

theorem Double.round_div_re_example :
    Double.round (19 / (4879350657160892 * 2 ^ (-47 : ℤ)))
      = Double.finite (4936181696428990 * 2 ^ (-53 : ℤ)) := by
  have h := Double.round_pos_eq (19 / (4879350657160892 * 2 ^ (-47 : ℤ))) (-53) 4936181696428990
    (by norm_num) (by norm_num)
    (by norm_num) (by norm_num) (by norm_num) (by norm_num) (by norm_num)
  simpa using h

theorem Double.round_div_im_example :
    Double.round (29 / (4879350657160892 * 2 ^ (-47 : ℤ)))
      = Double.finite (7534172062970564 * 2 ^ (-53 : ℤ)) := by
  have h := Double.round_pos_eq (29 / (4879350657160892 * 2 ^ (-47 : ℤ))) (-53) 7534172062970564
    (by norm_num) (by norm_num)
    (by norm_num) (by norm_num) (by norm_num) (by norm_num) (by norm_num)
  simpa using h

theorem Complex.abs_nineteen_twentynine : Complex.abs (Complex.mk 19 29) = Real.sqrt 1202 := by
  rw [Complex.abs_apply, Complex.normSq_mk]
  norm_num

/-- In rounded doubles `new QubitState(math.complex(19, 29), 0)` stores
`QubitState.storedExample`. -/
theorem QubitState.constructorDouble_round_example :
    QubitState.constructorDouble Double.round (Complex.mk 19 29) 0
      = some QubitState.storedExample := by
  have hn0 : (4879350657160892 * 2 ^ (-47 : ℤ) : ℝ) ≠ 0 := by norm_num
  have hz : (0 : ℝ) ^ 2 = 0 := by norm_num
  have hre : (4936181696428990 * 2 ^ (-53 : ℤ) : ℝ) = 2468090848214495 / 4503599627370496 := by
    norm_num
  have him : (7534172062970564 * 2 ^ (-53 : ℤ) : ℝ) = 1883543015742641 / 2251799813685248 := by
    norm_num
  simp only [QubitState.constructorDouble, QubitState.normalizeDouble, Double.abs,
    Complex.abs_nineteen_twentynine, map_zero, Double.round_sqrt_1202, Double.round_zero,
    Double.pow, hz, Double.round_sq_example, Double.add, Double.round_sum_example, Double.sqrt,
    Double.round_sqrt_example, ne_eq, hn0, not_false_eq_true, if_true, Double.divideComplex,
    Double.divide, Double.round_div_re_example, Double.round_div_im_example, Complex.zero_re,
    Complex.zero_im, zero_div, Option.some_bind, QubitState.storedExample, hre, him]
  rfl

theorem QubitState.storedExample_normSq :
    Complex.abs QubitState.storedExample.alpha ^ 2
      = 1 + 6020809259438533 / 20282409603651670423947251286016 := by
  rw [Complex.sq_abs, Complex.normSq_apply]
  simp only [QubitState.storedExample]
  norm_num

theorem QubitState.storedExample_abs_gt_one :
    1 < Complex.abs QubitState.storedExample.alpha := by
  have h := QubitState.storedExample_normSq
  have h0 : 0 ≤ Complex.abs QubitState.storedExample.alpha := Complex.abs.nonneg _
  by_contra hc
  push_neg at hc
  have : Complex.abs QubitState.storedExample.alpha ^ 2 ≤ 1 := pow_le_one₀ h0 hc
  rw [h] at this
  norm_num at this

theorem QubitState.storedExample_abs :
    Complex.abs QubitState.storedExample.alpha
      = Real.sqrt (1 + 6020809259438533 / 20282409603651670423947251286016) := by
  rw [← QubitState.storedExample_normSq, Real.sqrt_sq (Complex.abs.nonneg _)]

/-- The double `math.abs(alpha)` of the stored example is `1 + 2 ^ (-52)`, the
double next above 1. -/
theorem QubitState.storedExample_abs_round :
    Double.abs Double.round QubitState.storedExample.alpha
      = Double.finite (1 + 2 ^ (-52 : ℤ)) := by
  have h := Double.round_sqrt_eq (1 + 6020809259438533 / 20282409603651670423947251286016)
    (-52) 4503599627370497 (by norm_num) (by norm_num)
    (by norm_num) (by norm_num) (by norm_num) (by norm_num) (by norm_num)
  have e : ((4503599627370497 : ℤ) : ℝ) * 2 ^ (-52 : ℤ) = 1 + 2 ^ (-52 : ℤ) := by norm_num
  rw [e] at h
  simp only [Double.abs, QubitState.storedExample_abs]
  exact h

/-- The double `probability0()` of the stored example is `1 + 2 ^ (-51)`. -/
theorem QubitState.storedExample_probability0_round :
    QubitState.probability0Double Double.round QubitState.storedExample
      = Double.finite (1 + 2 ^ (-51 : ℤ)) := by
  have h := Double.round_pos_eq ((1 + 2 ^ (-52 : ℤ)) ^ 2)
    (-52) 4503599627370498 (by norm_num) (by norm_num)
    (by norm_num) (by norm_num) (by norm_num) (by norm_num) (by norm_num)
  have e : ((4503599627370498 : ℤ) : ℝ) * 2 ^ (-52 : ℤ) = 1 + 2 ^ (-51 : ℤ) := by norm_num
  rw [e] at h
  simp only [QubitState.probability0Double, QubitState.storedExample_abs_round, Double.pow]
  exact h

/-- C2: constructing from `alpha = 0`, `beta = 0` skips the normalization and
keeps the amplitudes `(0, 0)`; on every pair of amplitudes the constructor
returns a state without ever dividing by zero. -/
theorem C2_constructor_zero_total :
    QubitState.constructor 0 0 = { alpha := 0, beta := 0 } ∧
    QubitState.constructorChecked 0 0 = some { alpha := 0, beta := 0 } ∧
    ∀ alpha beta : ℂ,
      QubitState.constructorChecked alpha beta = some (QubitState.constructor alpha beta) := by
  refine ⟨QubitState.constructor_zero, ?_, ?_⟩
  · simp [QubitState.constructorChecked, QubitState.normalizeChecked]
  · intro alpha beta
    simp only [QubitState.constructorChecked, QubitState.normalizeChecked,
      QubitState.constructor, QubitState.normalize, math.divideChecked]
    by_cases hn : Real.sqrt (Complex.abs alpha ^ 2 + Complex.abs beta ^ 2) = 0
    · simp [hn]
    · simp [hn]

/-- C3, as stated, fails in doubles: `new QubitState(math.complex(19, 29), 0)`
stores an alpha whose squared magnitude exceeds 1, and `probability0()` returns
`1 + 2 ^ (-51) = 1.0000000000000004`, outside `[0, 1]`. -/
theorem C3_probability_above_one_counterexample :
    QubitState.constructorDouble Double.round (Complex.mk 19 29) 0
      = some QubitState.storedExample ∧
    QubitState.probability0Double Double.round QubitState.storedExample
      = Double.finite (1 + 2 ^ (-51 : ℤ)) ∧
    (1 : ℝ) < 1 + 2 ^ (-51 : ℤ) ∧
    1 < QubitState.storedExample.probability0 ∧
    ¬ (0 ≤ QubitState.storedExample.probability0 ∧
        QubitState.storedExample.probability0 ≤ 1) := by
  have hgt : 1 < QubitState.storedExample.probability0 := by
    unfold QubitState.probability0
    rw [QubitState.storedExample_normSq]
    norm_num
  refine ⟨QubitState.constructorDouble_round_example,
    QubitState.storedExample_probability0_round, by norm_num, hgt, ?_⟩
  rintro ⟨_, h⟩
  linarith

/-- C3, amended: for every state, `probability0()` is the squared magnitude of the
stored alpha and `probability1()` that of the stored beta, each is at least 0, and
each is at most 1 whenever the stored amplitudes have `|alpha|² + |beta|² ≤ 1`;
after rounding the constructor may store amplitudes slightly above that. -/
theorem C3_probabilities_squared_magnitude (s : QubitState) :
    s.probability0 = s.alpha.re ^ 2 + s.alpha.im ^ 2 ∧
    s.probability1 = s.beta.re ^ 2 + s.beta.im ^ 2 ∧
    0 ≤ s.probability0 ∧ 0 ≤ s.probability1 ∧
    (Complex.abs s.alpha ^ 2 + Complex.abs s.beta ^ 2 ≤ 1 →
      s.probability0 ≤ 1 ∧ s.probability1 ≤ 1) := by
  have h0 : 0 ≤ s.probability0 := sq_nonneg _
  have h1 : 0 ≤ s.probability1 := sq_nonneg _
  refine ⟨?_, ?_, h0, h1, ?_⟩
  · simp only [QubitState.probability0, Complex.sq_abs, Complex.normSq_apply]; ring
  · simp only [QubitState.probability1, Complex.sq_abs, Complex.normSq_apply]; ring
  · intro h
    unfold QubitState.probability0 QubitState.probability1 at *
    constructor <;> linarith

/-- Witness of the amended C3 at the state `(3/5, 4i/5)`: the probabilities are
`9/25` and `16/25`. -/
theorem C3_probabilities_squared_magnitude_witness :
    Complex.abs (((3 / 5 : ℝ) : ℂ)) ^ 2 + Complex.abs (Complex.mk 0 (4 / 5)) ^ 2 ≤ 1 ∧
    QubitState.probability0 { alpha := ((3 / 5 : ℝ) : ℂ), beta := Complex.mk 0 (4 / 5) }
      = 9 / 25 ∧
    QubitState.probability1 { alpha := ((3 / 5 : ℝ) : ℂ), beta := Complex.mk 0 (4 / 5) }
      = 16 / 25 ∧
    QubitState.probability0 { alpha := ((3 / 5 : ℝ) : ℂ), beta := Complex.mk 0 (4 / 5) } ≤ 1 ∧
    QubitState.probability1 { alpha := ((3 / 5 : ℝ) : ℂ), beta := Complex.mk 0 (4 / 5) }
      ≤ 1 := by
  have hle : Complex.abs (((3 / 5 : ℝ) : ℂ)) ^ 2 + Complex.abs (Complex.mk 0 (4 / 5)) ^ 2 ≤ 1 := by
    rw [Complex.sq_abs, Complex.sq_abs, Complex.normSq_apply, Complex.normSq_apply]
    simp only [Complex.ofReal_re, Complex.ofReal_im]
    norm_num
  have h := C3_probabilities_squared_magnitude
    { alpha := ((3 / 5 : ℝ) : ℂ), beta := Complex.mk 0 (4 / 5) }
  obtain ⟨e0, e1, _, _, hb⟩ := h
  refine ⟨hle, ?_, ?_, (hb hle).1, (hb hle).2⟩
  · rw [e0]; simp only [Complex.ofReal_re, Complex.ofReal_im]; norm_num
  · rw [e1]; norm_num

/-- C4: for every catalog gate `G` and every normalized state `s`, the state
returned by `applyGate(G, s)` has `probability0() + probability1() = 1`. -/
theorem C4_catalog_gate_total_probability (G : Gate) (hG : G ∈ QuantumGates.catalog)
    (s : QubitState) (hs : s.IsNormalized) :
    (QuantumGates.applyGate G s).probability0 + (QuantumGates.applyGate G s).probability1 = 1 := by
  rw [QuantumGates.applyGate_of_norm_preserving G s
    (QuantumGates.catalog_norm G hG s.alpha s.beta) hs]
  simp only [QubitState.probability0, QubitState.probability1]
  rw [QuantumGates.catalog_norm G hG s.alpha s.beta]
  exact hs

/-- Witness of C4: the Hadamard gate applied to the state `(1, 0)`. -/
theorem C4_catalog_gate_total_probability_witness :
    QuantumGates.hadamard ∈ QuantumGates.catalog ∧
    QubitState.IsNormalized { alpha := 1, beta := 0 } ∧
    (QuantumGates.applyGate QuantumGates.hadamard { alpha := 1, beta := 0 }).probability0
      + (QuantumGates.applyGate QuantumGates.hadamard { alpha := 1, beta := 0 }).probability1
      = 1 :=
  ⟨by simp [QuantumGates.catalog], by simp [QubitState.IsNormalized],
   C4_catalog_gate_total_probability QuantumGates.hadamard (by simp [QuantumGates.catalog])
     { alpha := 1, beta := 0 } (by simp [QubitState.IsNormalized])⟩

theorem QubitHeap.getElem?_middle (before after : List QubitState) (s : QubitState) :
    (before ++ s :: after)[before.length]? = some s := by
  rw [List.getElem?_append_right (le_refl _), Nat.sub_self, List.getElem?_cons_zero]

theorem QubitHeap.construct_eq (heap : QubitHeap) (alpha beta : ℂ) :
    QubitHeap.construct heap alpha beta
      = (heap.length, heap ++ [QubitState.constructor alpha beta]) := by
  simp [QubitHeap.construct, QubitHeap.normalize, QubitState.constructor]

theorem QuantumGates.applyGate_eq_spec (m : Gate) (s : QubitState) :
    QuantumGates.applyGate m s = QuantumGates.applyGateSpec (Matrix.of m) s.alpha s.beta := by
  simp only [QuantumGates.applyGate, QuantumGates.applyGateSpec, QubitState.constructor,
    QubitState.normalize, Matrix.mulVec, Matrix.dotProduct, Fin.sum_univ_two, Matrix.of_apply,
    Matrix.cons_val_zero, Matrix.cons_val_one, Matrix.head_cons, Complex.sq_abs]
  by_cases hn : Real.sqrt (Complex.normSq (m 0 0 * s.alpha + m 0 1 * s.beta)
      + Complex.normSq (m 1 0 * s.alpha + m 1 1 * s.beta)) = 0
  · simp [hn]
  · simp [hn]

/-- C5: for every 2×2 complex matrix `m` and every state `s` with amplitudes
`(alpha, beta)`, `applyGate(m, s)` is the state constructed from
`(m00*alpha + m01*beta, m10*alpha + m11*beta)`, that is the complex
matrix-vector product divided by its norm; on the heap the call allocates
that state as a new object and leaves `s` and every other object unmodified. -/
theorem C5_applyGate_matrix_vector_product (m : Gate) (s : QubitState)
    (before after : List QubitState) :
    QuantumGates.applyGate m s
      = QubitState.constructor (m 0 0 * s.alpha + m 0 1 * s.beta)
          (m 1 0 * s.alpha + m 1 1 * s.beta) ∧
    QuantumGates.applyGate m s
      = QubitState.constructor (Matrix.mulVec (Matrix.of m) ![s.alpha, s.beta] 0)
          (Matrix.mulVec (Matrix.of m) ![s.alpha, s.beta] 1) ∧
    QuantumGates.applyGate m s = QuantumGates.applyGateSpec (Matrix.of m) s.alpha s.beta ∧
    QubitHeap.applyGate (before ++ s :: after) m before.length
      = some ((before ++ s :: after).length,
          (before ++ s :: after) ++ [QuantumGates.applyGate m s]) ∧
    ((before ++ s :: after) ++ [QuantumGates.applyGate m s])[before.length]? = some s := by
  refine ⟨rfl, ?_, QuantumGates.applyGate_eq_spec m s, ?_, ?_⟩
  · simp [QuantumGates.applyGate, Matrix.mulVec, Matrix.dotProduct, Fin.sum_univ_two]
  · have hget := QubitHeap.getElem?_middle before after s
    simp only [QubitHeap.applyGate, hget, QubitHeap.construct_eq, QuantumGates.applyGate]
  · rw [List.append_assoc, List.cons_append]
    exact QubitHeap.getElem?_middle before _ s

/-- C6: the six gate constructors return the catalog matrices
`X = [[0,1],[1,0]]`, `Y = [[0,-i],[i,0]]`, `Z = [[1,0],[0,-1]]`,
`H = [[1/√2, 1/√2],[1/√2, -1/√2]]`, `S = [[1,0],[0,i]]` and
`T = [[1,0],[0, cos(π/4) + i·sin(π/4)]]`, the last entry being `e^{iπ/4}`. -/
theorem C6_gate_constructors_catalog_matrices :
    QuantumGates.pauliX = ![![0, 1], ![1, 0]] ∧
    QuantumGates.pauliY = ![![0, -Complex.I], ![Complex.I, 0]] ∧
    QuantumGates.pauliZ = ![![1, 0], ![0, -1]] ∧
    QuantumGates.hadamard
      = ![![1 / (Real.sqrt 2 : ℂ), 1 / (Real.sqrt 2 : ℂ)],
          ![1 / (Real.sqrt 2 : ℂ), -(1 / (Real.sqrt 2 : ℂ))]] ∧
    QuantumGates.sGate = ![![1, 0], ![0, Complex.I]] ∧
    QuantumGates.tGate
      = ![![1, 0], ![0, (Real.cos (Real.pi / 4) : ℂ) + Complex.I * (Real.sin (Real.pi / 4) : ℂ)]] ∧
    QuantumGates.tGate 1 1 = Complex.exp (Complex.I * ((Real.pi / 4 : ℝ) : ℂ)) := by
  have hI : Complex.mk 0 1 = Complex.I := rfl
  have hnI : Complex.mk 0 (-1) = -Complex.I := by
    apply Complex.ext <;> simp
  have hT : Complex.mk (Real.cos (Real.pi / 4)) (Real.sin (Real.pi / 4))
      = (Real.cos (Real.pi / 4) : ℂ) + Complex.I * (Real.sin (Real.pi / 4) : ℂ) := by
    apply Complex.ext <;> simp
  refine ⟨rfl, ?_, rfl, ?_, ?_, ?_, ?_⟩
  · simp only [QuantumGates.pauliY, hI, hnI]
  · simp only [QuantumGates.hadamard]
    push_cast
    rfl
  · simp only [QuantumGates.sGate, hI]
  · simp only [QuantumGates.tGate, hT]
  · simp only [QuantumGates.tGate, hT, Matrix.cons_val_one, Matrix.head_cons]
    rw [mul_comm Complex.I ((Real.pi / 4 : ℝ) : ℂ), Complex.exp_mul_I, mul_comm Complex.I,
      Complex.ofReal_cos, Complex.ofReal_sin]

/-- C7: every catalog gate `G` is unitary,
`|G00*a + G01*b|² + |G10*a + G11*b|² = |a|² + |b|²` for all complex `a`, `b`;
and for a normalized state `s` the re-normalization inside `applyGate` changes
nothing: the amplitudes of `applyGate(G, s)` are exactly the matrix-vector product. -/
theorem C7_catalog_gates_unitary (G : Gate) (hG : G ∈ QuantumGates.catalog)
    (a b : ℂ) (s : QubitState) (hs : s.IsNormalized) :
    Complex.abs (G 0 0 * a + G 0 1 * b) ^ 2 + Complex.abs (G 1 0 * a + G 1 1 * b) ^ 2
      = Complex.abs a ^ 2 + Complex.abs b ^ 2 ∧
    (QuantumGates.applyGate G s).alpha = G 0 0 * s.alpha + G 0 1 * s.beta ∧
    (QuantumGates.applyGate G s).beta = G 1 0 * s.alpha + G 1 1 * s.beta := by
  refine ⟨QuantumGates.catalog_norm G hG a b, ?_, ?_⟩
  · rw [QuantumGates.applyGate_of_norm_preserving G s
      (QuantumGates.catalog_norm G hG s.alpha s.beta) hs]
  · rw [QuantumGates.applyGate_of_norm_preserving G s
      (QuantumGates.catalog_norm G hG s.alpha s.beta) hs]

/-- Witness of C7: the T gate, the amplitudes `(2, 3i)` and the state `(0, 1)`. -/
theorem C7_catalog_gates_unitary_witness :
    QuantumGates.tGate ∈ QuantumGates.catalog ∧
    QubitState.IsNormalized { alpha := 0, beta := 1 } ∧
    (Complex.abs (QuantumGates.tGate 0 0 * 2 + QuantumGates.tGate 0 1 * (3 * Complex.I)) ^ 2
      + Complex.abs (QuantumGates.tGate 1 0 * 2 + QuantumGates.tGate 1 1 * (3 * Complex.I)) ^ 2
      = Complex.abs 2 ^ 2 + Complex.abs (3 * Complex.I) ^ 2 ∧
    (QuantumGates.applyGate QuantumGates.tGate { alpha := 0, beta := 1 }).alpha
      = QuantumGates.tGate 0 0 * 0 + QuantumGates.tGate 0 1 * 1 ∧
    (QuantumGates.applyGate QuantumGates.tGate { alpha := 0, beta := 1 }).beta
      = QuantumGates.tGate 1 0 * 0 + QuantumGates.tGate 1 1 * 1) :=
  ⟨by simp [QuantumGates.catalog], by simp [QubitState.IsNormalized],
   C7_catalog_gates_unitary QuantumGates.tGate (by simp [QuantumGates.catalog])
     2 (3 * Complex.I) { alpha := 0, beta := 1 } (by simp [QubitState.IsNormalized])⟩

/-- C8, as stated, fails: the state that `new QubitState(math.complex(19, 29), 0)`
stores in rounded doubles is normalized to within `1e-10`, but its `|alpha|` exceeds 1,
so `Math.acos` yields NaN and `toBlochCoordinates()` returns no point of the
unit sphere. -/
theorem C8_bloch_unit_sphere_counterexample :
    QubitState.constructorDouble Double.round (Complex.mk 19 29) 0
      = some QubitState.storedExample ∧
    QubitState.storedExample.IsNormalizedWithin ∧
    1 < Complex.abs QubitState.storedExample.alpha ∧
    QubitState.storedExample.toBlochCoordinates = none ∧
    ¬ ∃ c : BlochCoordinates,
        QubitState.storedExample.toBlochCoordinates = some c ∧
        c.x ^ 2 + c.y ^ 2 + c.z ^ 2 = 1 := by
  have hgt := QubitState.storedExample_abs_gt_one
  have hnone : QubitState.storedExample.toBlochCoordinates = none :=
    QubitState.toBlochCoordinates_eq_none _ (not_le.mpr hgt)
  refine ⟨QubitState.constructorDouble_round_example, ?_, hgt, hnone, ?_⟩
  · unfold QubitState.IsNormalizedWithin
    rw [QubitState.storedExample_normSq]
    simp only [QubitState.storedExample, map_zero]
    rw [abs_le]
    constructor <;> norm_num
  · rintro ⟨c, hc, _⟩
    rw [hnone] at hc
    cases hc

/-- C8, amended: for every state whose stored `|alpha|` is at most 1, as it is
for every state with `|alpha|² + |beta|² = 1` exactly, `toBlochCoordinates()`
returns a point `(x, y, z)` with `x² + y² + z² = 1`. -/
theorem C8_bloch_unit_sphere_of_abs_le_one (s : QubitState)
    (ha : Complex.abs s.alpha ≤ 1) :
    ∃ c : BlochCoordinates, s.toBlochCoordinates = some c ∧ c.x ^ 2 + c.y ^ 2 + c.z ^ 2 = 1 := by
  refine ⟨_, QubitState.toBlochCoordinates_of_abs_le_one s ha, ?_⟩
  simp only []
  generalize (if Complex.abs s.beta > 1e-10 then
    Complex.arg s.beta - Complex.arg s.alpha else 0) = phi
  generalize 2 * Real.arccos (Complex.abs s.alpha) = theta
  have h1 := Real.sin_sq_add_cos_sq theta
  have h2 := Real.sin_sq_add_cos_sq phi
  have e : (Real.sin theta * Real.cos phi) ^ 2 + (Real.sin theta * Real.sin phi) ^ 2
      + Real.cos theta ^ 2
      = Real.sin theta ^ 2 * (Real.sin phi ^ 2 + Real.cos phi ^ 2) + Real.cos theta ^ 2 := by
    ring
  rw [e, h2, mul_one, h1]

/-- Witness of the amended C8 at the state `(0, i)`. -/
theorem C8_bloch_unit_sphere_of_abs_le_one_witness :
    Complex.abs (0 : ℂ) ≤ 1 ∧
    ∃ c : BlochCoordinates,
      QubitState.toBlochCoordinates { alpha := 0, beta := Complex.I } = some c ∧
      c.x ^ 2 + c.y ^ 2 + c.z ^ 2 = 1 :=
  ⟨by simp,
   C8_bloch_unit_sphere_of_abs_le_one { alpha := 0, beta := Complex.I } (by simp)⟩

/-- C9: for every state, `toBlochCoordinates()` returns `theta = 2*acos(|alpha|)`,
`phi = arg(beta) - arg(alpha)` when `|beta| > 1e-10` and `phi = 0` otherwise, and
`x = sin(theta)*cos(phi)`, `y = sin(theta)*sin(phi)`, `z = cos(theta)`; the
record is returned exactly when the arc cosine is defined, i.e. `|alpha| ≤ 1`. -/
theorem C9_bloch_coordinates_formula (s : QubitState) (c : BlochCoordinates) :
    s.toBlochCoordinates = some c ↔
      (Complex.abs s.alpha ≤ 1 ∧
       c.theta = 2 * Real.arccos (Complex.abs s.alpha) ∧
       c.phi = (if Complex.abs s.beta > 1e-10 then
                  Complex.arg s.beta - Complex.arg s.alpha else 0) ∧
       c.x = Real.sin c.theta * Real.cos c.phi ∧
       c.y = Real.sin c.theta * Real.sin c.phi ∧
       c.z = Real.cos c.theta) := by
  constructor
  · intro h
    by_cases hle : Complex.abs s.alpha ≤ 1
    · rw [QubitState.toBlochCoordinates_of_abs_le_one s hle] at h
      injection h with h
      subst h
      exact ⟨hle, rfl, rfl, rfl, rfl, rfl⟩
    · rw [QubitState.toBlochCoordinates_eq_none s hle] at h
      cases h
  · rintro ⟨hle, ht, hp, hx, hy, hz⟩
    rw [QubitState.toBlochCoordinates_of_abs_le_one s hle]
    obtain ⟨x, y, z, theta, phi⟩ := c
    simp only at ht hp hx hy hz
    subst ht hp hx hy hz
    rfl

/-- C10, as stated, fails in doubles: `new QubitState(math.complex(19, 29), 0)`
stores an alpha with `math.abs(alpha) = 1 + 2 ^ (-52) = 1.0000000000000002`, the
arc cosine of which is NaN, so `toBlochCoordinates()` returns no theta. -/
theorem C10_theta_undefined_counterexample :
    QubitState.constructorDouble Double.round (Complex.mk 19 29) 0
      = some QubitState.storedExample ∧
    QubitState.acosArgumentDouble Double.round QubitState.storedExample
      = Double.finite (1 + 2 ^ (-52 : ℤ)) ∧
    Math.acos (1 + 2 ^ (-52 : ℤ)) = none ∧
    ¬ (Complex.abs QubitState.storedExample.alpha ≤ 1) ∧
    QubitState.storedExample.toBlochCoordinates = none := by
  have hgt := QubitState.storedExample_abs_gt_one
  refine ⟨QubitState.constructorDouble_round_example, QubitState.storedExample_abs_round, ?_,
    not_le.mpr hgt, QubitState.toBlochCoordinates_eq_none _ (not_le.mpr hgt)⟩
  have hn : ¬ (-1 ≤ (1 + 2 ^ (-52 : ℤ) : ℝ) ∧ (1 + 2 ^ (-52 : ℤ) : ℝ) ≤ 1) := by
    rintro ⟨_, h⟩
    norm_num at h
  simp only [Math.acos, if_neg hn]

/-- C10, amended: for every state whose stored `|alpha|` is at most 1, the theta
returned by `toBlochCoordinates()` is defined, equals `2 * acos(|alpha|)` and lies
in the closed interval `[0, pi]`; after rounding the constructor may store an
alpha of magnitude slightly above 1. -/
theorem C10_theta_defined_of_abs_le_one (s : QubitState) (h1 : Complex.abs s.alpha ≤ 1) :
    ∃ c : BlochCoordinates,
      s.toBlochCoordinates = some c ∧
      c.theta = 2 * Real.arccos (Complex.abs s.alpha) ∧
      0 ≤ c.theta ∧ c.theta ≤ Real.pi := by
  have h0 : 0 ≤ Complex.abs s.alpha := Complex.abs.nonneg _
  refine ⟨_, QubitState.toBlochCoordinates_of_abs_le_one _ h1, rfl, ?_, ?_⟩
  · have := Real.arccos_nonneg (Complex.abs s.alpha)
    simp only []
    linarith
  · have := Real.arccos_le_pi_div_two.mpr h0
    simp only []
    linarith

/-- Witness of the amended C10 at the state `(3/5, 4i/5)`. -/
theorem C10_theta_defined_of_abs_le_one_witness :
    Complex.abs (((3 / 5 : ℝ) : ℂ)) ≤ 1 ∧
    ∃ c : BlochCoordinates,
      QubitState.toBlochCoordinates { alpha := ((3 / 5 : ℝ) : ℂ), beta := Complex.mk 0 (4 / 5) }
        = some c ∧
      c.theta = 2 * Real.arccos (Complex.abs (((3 / 5 : ℝ) : ℂ))) ∧
      0 ≤ c.theta ∧ c.theta ≤ Real.pi :=
  have hle : Complex.abs (((3 / 5 : ℝ) : ℂ)) ≤ 1 := by
    rw [Complex.abs_ofReal, abs_of_pos (by norm_num)]
    norm_num
  ⟨hle, C10_theta_defined_of_abs_le_one
    { alpha := ((3 / 5 : ℝ) : ℂ), beta := Complex.mk 0 (4 / 5) } hle⟩

/-! ## Facts about `createStateFromAngles` -/

theorem Complex.abs_mk_cos_sin (phi : ℝ) :
    Complex.abs (Complex.mk (Real.cos phi) (Real.sin phi)) = 1 := by
  rw [Complex.abs_apply, Complex.normSq_mk]
  have h := Real.cos_sq_add_sin_sq phi
  have e : Real.cos phi * Real.cos phi + Real.sin phi * Real.sin phi = 1 := by nlinarith
  rw [e, Real.sqrt_one]

theorem createStateFromAngles_eq (theta phi : ℝ) :
    createStateFromAngles theta phi =
      { alpha := ((Real.cos (theta / 2) : ℝ) : ℂ),
        beta := Complex.mk (Real.cos phi) (Real.sin phi)
          * ((Real.sin (theta / 2) : ℝ) : ℂ) } := by
  have hn : Complex.abs ((Real.cos (theta / 2) : ℝ) : ℂ) ^ 2
      + Complex.abs (Complex.mk (Real.cos phi) (Real.sin phi)
          * ((Real.sin (theta / 2) : ℝ) : ℂ)) ^ 2 = 1 := by
    rw [map_mul, Complex.abs_mk_cos_sin, one_mul, Complex.abs_ofReal, Complex.abs_ofReal,
      sq_abs, sq_abs]
    exact Real.cos_sq_add_sin_sq (theta / 2)
  simp only [createStateFromAngles, QubitState.constructor, QubitState.normalize]
  rw [hn]
  simp

theorem createStateFromAngles_abs_beta (theta phi : ℝ) :
    Complex.abs (createStateFromAngles theta phi).beta = |Real.sin (theta / 2)| := by
  rw [createStateFromAngles_eq]
  simp only [map_mul, Complex.abs_mk_cos_sin, one_mul, Complex.abs_ofReal]

theorem createStateFromAngles_abs_alpha (theta phi : ℝ) :
    Complex.abs (createStateFromAngles theta phi).alpha = |Real.cos (theta / 2)| := by
  rw [createStateFromAngles_eq]
  simp only [Complex.abs_ofReal]

theorem createStateFromAngles_normalized (theta phi : ℝ) :
    (createStateFromAngles theta phi).IsNormalized := by
  unfold QubitState.IsNormalized
  rw [createStateFromAngles_abs_alpha, createStateFromAngles_abs_beta, sq_abs, sq_abs]
  exact Real.cos_sq_add_sin_sq (theta / 2)

theorem createStateFromAngles_arg_beta (theta phi : ℝ) (hs : 0 < Real.sin (theta / 2))
    (hphi : phi ∈ Set.Ioc (-Real.pi) Real.pi) :
    Complex.arg (createStateFromAngles theta phi).beta = phi := by
  rw [createStateFromAngles_eq]
  simp only []
  rw [Complex.arg_mul_real hs]
  have e : Complex.mk (Real.cos phi) (Real.sin phi)
      = Complex.cos (phi : ℂ) + Complex.sin (phi : ℂ) * Complex.I := by
    apply Complex.ext <;> simp [← Complex.ofReal_cos, ← Complex.ofReal_sin]
  rw [e]
  exact Complex.arg_cos_add_sin_mul_I hphi

theorem createStateFromAngles_arg_alpha (theta phi : ℝ) (hc : 0 ≤ Real.cos (theta / 2)) :
    Complex.arg (createStateFromAngles theta phi).alpha = 0 := by
  rw [createStateFromAngles_eq]
  exact Complex.arg_ofReal_of_nonneg hc

theorem createStateFromAngles_shift (theta phi : ℝ) :
    createStateFromAngles theta phi = createStateFromAngles theta (phi - 2 * Real.pi) := by
  rw [createStateFromAngles_eq, createStateFromAngles_eq, Real.cos_sub_two_pi,
    Real.sin_sub_two_pi]

theorem Real.small_lt_sin_of_gt (t : ℝ) (h1 : 0.005 < t) (h2 : t ≤ Real.pi / 2) :
    1e-10 < Real.sin t := by
  have hb : (0.005 : ℝ) - 0.005 ^ 3 / 4 < Real.sin 0.005 :=
    Real.sin_gt_sub_cube (by norm_num) (by norm_num)
  have hpi := Real.pi_gt_three
  have hm : Real.sin 0.005 < Real.sin t :=
    Real.sin_lt_sin_of_lt_of_le_pi_div_two (by linarith) h2 h1
  have hn : (1e-10 : ℝ) < 0.005 - 0.005 ^ 3 / 4 := by norm_num
  linarith

theorem createStateFromAngles_abs_alpha_le_one (theta phi : ℝ) :
    Complex.abs (createStateFromAngles theta phi).alpha ≤ 1 :=
  QubitState.abs_alpha_le_one_of_normalized _ (createStateFromAngles_normalized theta phi)

theorem createStateFromAngles_bloch_phi (theta phi : ℝ) (h1 : 0.01 < theta)
    (h2 : theta < Real.pi - 0.01) (hphi : phi ∈ Set.Ioc (-Real.pi) Real.pi) :
    ∃ c : BlochCoordinates,
      (createStateFromAngles theta phi).toBlochCoordinates = some c ∧ c.phi = phi := by
  have hs : 1e-10 < Real.sin (theta / 2) :=
    Real.small_lt_sin_of_gt (theta / 2) (by linarith) (by linarith)
  have hs0 : 0 < Real.sin (theta / 2) := lt_trans (by norm_num) hs
  have hc : 0 ≤ Real.cos (theta / 2) :=
    Real.cos_nonneg_of_neg_pi_div_two_le_of_le (by linarith) (by linarith)
  refine ⟨_, QubitState.toBlochCoordinates_of_abs_le_one _
    (createStateFromAngles_abs_alpha_le_one theta phi), ?_⟩
  simp only []
  rw [createStateFromAngles_abs_beta, abs_of_pos hs0, if_pos hs,
    createStateFromAngles_arg_beta theta phi hs0 hphi,
    createStateFromAngles_arg_alpha theta phi hc, sub_zero]

theorem QubitState.constructor_of_normalized (a b : ℂ)
    (h : Complex.abs a ^ 2 + Complex.abs b ^ 2 = 1) :
    QubitState.constructor a b = { alpha := a, beta := b } := by
  simp only [QubitState.constructor, QubitState.normalize]
  rw [h]
  simp

theorem createStateFromAngles_zero_zero :
    createStateFromAngles 0 0 = { alpha := 1, beta := 0 } := by
  rw [createStateFromAngles_eq]
  simp

theorem createStateFromAngles_pi_zero :
    createStateFromAngles Real.pi 0 = { alpha := 0, beta := 1 } := by
  rw [createStateFromAngles_eq]
  have h1 : Complex.mk 1 0 = 1 := rfl
  simp only [Real.cos_pi_div_two, Real.sin_pi_div_two, Real.cos_zero, Real.sin_zero,
    Complex.ofReal_zero, Complex.ofReal_one, mul_one, h1]

theorem QuantumGates.inv_sqrt2_pos : 0 < 1 / Real.sqrt 2 := by positivity

theorem QuantumGates.inv_sqrt2_gt_half : 1 / 2 < 1 / Real.sqrt 2 := by
  have h := QuantumGates.inv_sqrt2_sq
  have hp := QuantumGates.inv_sqrt2_pos
  nlinarith

theorem QuantumGates.inv_sqrt2_eq_cos : 1 / Real.sqrt 2 = Real.cos (Real.pi / 4) := by
  rw [Real.cos_pi_div_four]
  have h : Real.sqrt 2 * Real.sqrt 2 = 2 := Real.mul_self_sqrt (by norm_num)
  have hne : Real.sqrt 2 ≠ 0 := by positivity
  field_simp

theorem QuantumGates.arccos_inv_sqrt2 : Real.arccos (1 / Real.sqrt 2) = Real.pi / 4 := by
  rw [QuantumGates.inv_sqrt2_eq_cos]
  have hpi := Real.pi_pos
  exact Real.arccos_cos (by linarith) (by linarith)

theorem QuantumGates.applyGate_hadamard_ket0 :
    QuantumGates.applyGate QuantumGates.hadamard (createStateFromAngles 0 0)
      = { alpha := ((1 / Real.sqrt 2 : ℝ) : ℂ), beta := ((1 / Real.sqrt 2 : ℝ) : ℂ) } := by
  have hn : QubitState.IsNormalized { alpha := 1, beta := 0 } := by
    simp [QubitState.IsNormalized]
  have hG := QuantumGates.hadamard_norm 1 0
  rw [createStateFromAngles_zero_zero,
    QuantumGates.applyGate_of_norm_preserving QuantumGates.hadamard
      { alpha := 1, beta := 0 } hG hn]
  simp only [QuantumGates.hadamard, Matrix.cons_val_zero, Matrix.cons_val_one,
    Matrix.head_cons, mul_one, mul_zero, add_zero]

theorem QuantumGates.hadamard_ket0_normalized :
    QubitState.IsNormalized
      { alpha := ((1 / Real.sqrt 2 : ℝ) : ℂ), beta := ((1 / Real.sqrt 2 : ℝ) : ℂ) } := by
  have h := QuantumGates.inv_sqrt2_sq
  have hp := QuantumGates.inv_sqrt2_pos
  simp only [QubitState.IsNormalized, Complex.abs_ofReal, abs_of_pos hp]
  nlinarith

theorem QubitState.toBlochCoordinates_ket0 :
    QubitState.toBlochCoordinates { alpha := 1, beta := 0 }
      = some { x := 0, y := 0, z := 1, theta := 0, phi := 0 } := by
  rw [QubitState.toBlochCoordinates_of_abs_le_one _ (by simp)]
  simp

theorem QubitState.toBlochCoordinates_ket1 :
    QubitState.toBlochCoordinates { alpha := 0, beta := 1 }
      = some { x := 0, y := 0, z := -1, theta := Real.pi, phi := 0 } := by
  rw [QubitState.toBlochCoordinates_of_abs_le_one _ (by simp)]
  have h : (1e-10 : ℝ) < 1 := by norm_num
  have e : 2 * (Real.pi / 2) = Real.pi := by ring
  simp only [map_zero, map_one, Real.arccos_zero, e, Real.sin_pi, Real.cos_pi, zero_mul,
    gt_iff_lt, if_pos h, Complex.arg_one, Complex.arg_zero, sub_zero]

theorem QubitState.toBlochCoordinates_plus :
    QubitState.toBlochCoordinates
        { alpha := ((1 / Real.sqrt 2 : ℝ) : ℂ), beta := ((1 / Real.sqrt 2 : ℝ) : ℂ) }
      = some { x := 1, y := 0, z := 0, theta := Real.pi / 2, phi := 0 } := by
  have hp := QuantumGates.inv_sqrt2_pos
  have hh := QuantumGates.inv_sqrt2_gt_half
  have hgt : (1e-10 : ℝ) < 1 / Real.sqrt 2 := lt_trans (by norm_num) hh
  have e : 2 * (Real.pi / 4) = Real.pi / 2 := by ring
  rw [QubitState.toBlochCoordinates_of_abs_le_one _
    (QubitState.abs_alpha_le_one_of_normalized _ QuantumGates.hadamard_ket0_normalized)]
  simp only [Complex.abs_ofReal, abs_of_pos hp, QuantumGates.arccos_inv_sqrt2, e,
    gt_iff_lt, if_pos hgt, Complex.arg_ofReal_of_nonneg hp.le, sub_self, Real.sin_pi_div_two,
    Real.cos_pi_div_two, Real.cos_zero, Real.sin_zero, mul_one, mul_zero]

theorem QubitState.toBlochCoordinates_minus :
    QubitState.toBlochCoordinates
        { alpha := ((1 / Real.sqrt 2 : ℝ) : ℂ), beta := ((-(1 / Real.sqrt 2) : ℝ) : ℂ) }
      = some { x := -1, y := 0, z := 0, theta := Real.pi / 2, phi := Real.pi } := by
  have hp := QuantumGates.inv_sqrt2_pos
  have hh := QuantumGates.inv_sqrt2_gt_half
  have hgt : (1e-10 : ℝ) < 1 / Real.sqrt 2 := lt_trans (by norm_num) hh
  have hneg : -(1 / Real.sqrt 2) < 0 := by linarith
  have e : 2 * (Real.pi / 4) = Real.pi / 2 := by ring
  have hle : Complex.abs ((1 / Real.sqrt 2 : ℝ) : ℂ) ≤ 1 := by
    have h := QuantumGates.inv_sqrt2_sq
    rw [Complex.abs_ofReal, abs_of_pos hp]
    nlinarith
  rw [QubitState.toBlochCoordinates_of_abs_le_one
    { alpha := ((1 / Real.sqrt 2 : ℝ) : ℂ), beta := ((-(1 / Real.sqrt 2) : ℝ) : ℂ) } hle]
  simp only [Complex.abs_ofReal, abs_of_pos hp, abs_neg, QuantumGates.arccos_inv_sqrt2, e,
    gt_iff_lt, if_pos hgt, Complex.arg_ofReal_of_nonneg hp.le,
    Complex.arg_ofReal_of_neg hneg, sub_zero, Real.sin_pi_div_two,
    Real.cos_pi_div_two, Real.cos_pi, Real.sin_pi, mul_neg, mul_one, mul_zero]

theorem QuantumGates.applyGate_pauliX_ket0 :
    QuantumGates.applyGate QuantumGates.pauliX (createStateFromAngles 0 0)
      = { alpha := 0, beta := 1 } := by
  have hn : QubitState.IsNormalized { alpha := 1, beta := 0 } := by
    simp [QubitState.IsNormalized]
  have hG := QuantumGates.pauliX_norm 1 0
  rw [createStateFromAngles_zero_zero,
    QuantumGates.applyGate_of_norm_preserving QuantumGates.pauliX
      { alpha := 1, beta := 0 } hG hn]
  simp only [QuantumGates.pauliX, Matrix.cons_val_zero, Matrix.cons_val_one,
    Matrix.head_cons, mul_one, mul_zero, add_zero, zero_add]

theorem QuantumGates.applyGate_pauliZ_plus :
    QuantumGates.applyGate QuantumGates.pauliZ
        { alpha := ((1 / Real.sqrt 2 : ℝ) : ℂ), beta := ((1 / Real.sqrt 2 : ℝ) : ℂ) }
      = { alpha := ((1 / Real.sqrt 2 : ℝ) : ℂ), beta := ((-(1 / Real.sqrt 2) : ℝ) : ℂ) } := by
  have hG := QuantumGates.pauliZ_norm ((1 / Real.sqrt 2 : ℝ) : ℂ) ((1 / Real.sqrt 2 : ℝ) : ℂ)
  rw [QuantumGates.applyGate_of_norm_preserving QuantumGates.pauliZ
      { alpha := ((1 / Real.sqrt 2 : ℝ) : ℂ), beta := ((1 / Real.sqrt 2 : ℝ) : ℂ) } hG
      QuantumGates.hadamard_ket0_normalized]
  simp only [QuantumGates.pauliZ, Matrix.cons_val_zero, Matrix.cons_val_one,
    Matrix.head_cons, one_mul, zero_mul, add_zero, zero_add, neg_mul, Complex.ofReal_neg]

/-! ## Claims on `createStateFromAngles` and the display string -/

/-- C11, as stated, fails: at `theta = π/2`, `phi = 3π/2` the returned `phi` is
`-π/2`, which is not within `1e-6` of the input. -/
theorem C11_phi_roundtrip_counterexample :
    (0.01 < Real.pi / 2 ∧ Real.pi / 2 < Real.pi - 0.01 ∧
      0 ≤ 3 * Real.pi / 2 ∧ 3 * Real.pi / 2 < 2 * Real.pi) ∧
    ∃ c : BlochCoordinates,
      (createStateFromAngles (Real.pi / 2) (3 * Real.pi / 2)).toBlochCoordinates = some c ∧
      c.phi = -(Real.pi / 2) ∧ ¬ |c.phi - 3 * Real.pi / 2| ≤ 1e-6 := by
  have hpi := Real.pi_gt_three
  refine ⟨⟨by linarith, by linarith, by linarith, by linarith⟩, ?_⟩
  have hmem : -(Real.pi / 2) ∈ Set.Ioc (-Real.pi) Real.pi :=
    ⟨by linarith, by linarith⟩
  obtain ⟨c, hc, hphi⟩ := createStateFromAngles_bloch_phi (Real.pi / 2) (-(Real.pi / 2))
    (by linarith) (by linarith) hmem
  have hshift := createStateFromAngles_shift (Real.pi / 2) (3 * Real.pi / 2)
  have e : 3 * Real.pi / 2 - 2 * Real.pi = -(Real.pi / 2) := by ring
  rw [e] at hshift
  refine ⟨c, by rw [hshift]; exact hc, hphi, ?_⟩
  rw [hphi]
  have e2 : -(Real.pi / 2) - 3 * Real.pi / 2 = -(2 * Real.pi) := by ring
  rw [e2, abs_neg, abs_of_pos (by linarith)]
  intro h
  have : (1e-6 : ℝ) < 1 := by norm_num
  linarith

/-- C11, amended: for `theta` in `(0.01, π - 0.01)` and `phi` in `[0, 2π)`, the `phi`
returned by `toBlochCoordinates(createStateFromAngles(theta, phi))` is `phi` itself
when `phi ≤ π` and `phi - 2π` when `phi > π`: the same angle modulo `2π`. -/
theorem C11_phi_roundtrip_modulo_two_pi (theta phi : ℝ) (h1 : 0.01 < theta)
    (h2 : theta < Real.pi - 0.01) (h3 : 0 ≤ phi) (h4 : phi < 2 * Real.pi) :
    ∃ c : BlochCoordinates,
      (createStateFromAngles theta phi).toBlochCoordinates = some c ∧
      c.phi = if phi ≤ Real.pi then phi else phi - 2 * Real.pi := by
  have hpi := Real.pi_pos
  by_cases hle : phi ≤ Real.pi
  · rw [if_pos hle]
    exact createStateFromAngles_bloch_phi theta phi h1 h2 ⟨by linarith, hle⟩
  · rw [if_neg hle, createStateFromAngles_shift theta phi]
    push_neg at hle
    exact createStateFromAngles_bloch_phi theta (phi - 2 * Real.pi) h1 h2
      ⟨by linarith, by linarith⟩

/-- Witness of the amended C11 at `theta = 1`, `phi = 4`. -/
theorem C11_phi_roundtrip_modulo_two_pi_witness :
    (0.01 : ℝ) < 1 ∧ (1 : ℝ) < Real.pi - 0.01 ∧ (0 : ℝ) ≤ 4 ∧ (4 : ℝ) < 2 * Real.pi ∧
    ∃ c : BlochCoordinates,
      (createStateFromAngles 1 4).toBlochCoordinates = some c ∧
      c.phi = if (4 : ℝ) ≤ Real.pi then 4 else 4 - 2 * Real.pi :=
  ⟨by norm_num, by linarith [Real.pi_gt_three], by norm_num, by linarith [Real.pi_gt_three],
   C11_phi_roundtrip_modulo_two_pi 1 4 (by norm_num) (by linarith [Real.pi_gt_three])
     (by norm_num) (by linarith [Real.pi_gt_three])⟩

/-- C12: for every `theta` in `[0, π]` and every real `phi`,
`toBlochCoordinates(createStateFromAngles(theta, phi)).theta` equals `theta`. -/
theorem C12_theta_roundtrip (theta phi : ℝ) (h0 : 0 ≤ theta) (h1 : theta ≤ Real.pi) :
    ∃ c : BlochCoordinates,
      (createStateFromAngles theta phi).toBlochCoordinates = some c ∧ c.theta = theta := by
  have hc : 0 ≤ Real.cos (theta / 2) :=
    Real.cos_nonneg_of_neg_pi_div_two_le_of_le (by linarith) (by linarith)
  refine ⟨_, QubitState.toBlochCoordinates_of_abs_le_one _
    (createStateFromAngles_abs_alpha_le_one theta phi), ?_⟩
  simp only []
  rw [createStateFromAngles_abs_alpha, abs_of_nonneg hc,
    Real.arccos_cos (by linarith) (by linarith)]
  ring

/-- Witness of C12 at `theta = π`, `phi = 5`. -/
theorem C12_theta_roundtrip_witness :
    (0 : ℝ) ≤ Real.pi ∧ Real.pi ≤ Real.pi ∧
    ∃ c : BlochCoordinates,
      (createStateFromAngles Real.pi 5).toBlochCoordinates = some c ∧ c.theta = Real.pi :=
  ⟨Real.pi_pos.le, le_refl _, C12_theta_roundtrip Real.pi 5 Real.pi_pos.le (le_refl _)⟩

/-- C13: for every real `theta` and `phi`, `createStateFromAngles(theta, phi)` is a
normalized state whose stored amplitudes are exactly `alpha = cos(theta/2)` (zero
imaginary part) and `beta = (cos(phi) + i*sin(phi)) * sin(theta/2)`. -/
theorem C13_createStateFromAngles_amplitudes (theta phi : ℝ) :
    (createStateFromAngles theta phi).alpha = ((Real.cos (theta / 2) : ℝ) : ℂ) ∧
    (createStateFromAngles theta phi).alpha.im = 0 ∧
    (createStateFromAngles theta phi).beta
      = ((Real.cos phi : ℂ) + Complex.I * (Real.sin phi : ℂ)) * (Real.sin (theta / 2) : ℂ) ∧
    (createStateFromAngles theta phi).IsNormalized ∧
    (createStateFromAngles theta phi).probability0
      + (createStateFromAngles theta phi).probability1 = 1 := by
  have hmk : Complex.mk (Real.cos phi) (Real.sin phi)
      = (Real.cos phi : ℂ) + Complex.I * (Real.sin phi : ℂ) := by
    apply Complex.ext <;>
      simp only [Complex.add_re, Complex.add_im, Complex.mul_re, Complex.mul_im,
        Complex.ofReal_re, Complex.ofReal_im, Complex.I_re, Complex.I_im] <;> ring
  refine ⟨?_, ?_, ?_, createStateFromAngles_normalized theta phi,
    createStateFromAngles_normalized theta phi⟩
  · rw [createStateFromAngles_eq]
  · rw [createStateFromAngles_eq]; exact Complex.ofReal_im _
  · rw [createStateFromAngles_eq, hmk]

/-- C14: `applyGate(pauliX(), createStateFromAngles(0, 0))` equals
`createStateFromAngles(π, 0)`: both have `alpha = 0` and `beta = 1`. -/
theorem C14_pauliX_flips_ket0 :
    QuantumGates.applyGate QuantumGates.pauliX (createStateFromAngles 0 0)
      = createStateFromAngles Real.pi 0 ∧
    (QuantumGates.applyGate QuantumGates.pauliX (createStateFromAngles 0 0)).alpha = 0 ∧
    (QuantumGates.applyGate QuantumGates.pauliX (createStateFromAngles 0 0)).beta = 1 ∧
    (createStateFromAngles Real.pi 0).alpha = 0 ∧
    (createStateFromAngles Real.pi 0).beta = 1 := by
  rw [QuantumGates.applyGate_pauliX_ket0, createStateFromAngles_pi_zero]
  exact ⟨rfl, rfl, rfl, rfl, rfl⟩

/-- C15: `applyGate(hadamard(), createStateFromAngles(0, 0))` has
`alpha = beta = 1/√2`, `probability0() = probability1() = 1/2` and Bloch
coordinates `x = 1`, `y = 0`, `z = 0`. -/
theorem C15_hadamard_on_ket0 :
    (QuantumGates.applyGate QuantumGates.hadamard (createStateFromAngles 0 0)).alpha
      = ((1 / Real.sqrt 2 : ℝ) : ℂ) ∧
    (QuantumGates.applyGate QuantumGates.hadamard (createStateFromAngles 0 0)).beta
      = ((1 / Real.sqrt 2 : ℝ) : ℂ) ∧
    (QuantumGates.applyGate QuantumGates.hadamard (createStateFromAngles 0 0)).probability0
      = 1 / 2 ∧
    (QuantumGates.applyGate QuantumGates.hadamard (createStateFromAngles 0 0)).probability1
      = 1 / 2 ∧
    ∃ c : BlochCoordinates,
      (QuantumGates.applyGate QuantumGates.hadamard
        (createStateFromAngles 0 0)).toBlochCoordinates = some c ∧
      c.x = 1 ∧ c.y = 0 ∧ c.z = 0 := by
  have hsq := QuantumGates.inv_sqrt2_sq
  have hp := QuantumGates.inv_sqrt2_pos
  have hprob : Complex.abs ((1 / Real.sqrt 2 : ℝ) : ℂ) ^ 2 = 1 / 2 := by
    rw [Complex.abs_ofReal, abs_of_pos hp, sq]
    exact hsq
  rw [QuantumGates.applyGate_hadamard_ket0]
  exact ⟨rfl, rfl, hprob, hprob, _, QubitState.toBlochCoordinates_plus, rfl, rfl, rfl⟩

/-- C16: applying `pauliZ` to `H|0⟩ = (1/√2, 1/√2)` keeps `alpha` and negates
`beta`, giving `(1/√2, -1/√2)`; the Bloch `x` coordinate goes from `+1` to `-1`,
with `y = 0` and `z = 0`. -/
theorem C16_pauliZ_on_hadamard_state :
    (QuantumGates.applyGate QuantumGates.pauliZ
      (QuantumGates.applyGate QuantumGates.hadamard (createStateFromAngles 0 0))).alpha
      = ((1 / Real.sqrt 2 : ℝ) : ℂ) ∧
    (QuantumGates.applyGate QuantumGates.pauliZ
      (QuantumGates.applyGate QuantumGates.hadamard (createStateFromAngles 0 0))).beta
      = -((1 / Real.sqrt 2 : ℝ) : ℂ) ∧
    (QuantumGates.applyGate QuantumGates.pauliZ
      (QuantumGates.applyGate QuantumGates.hadamard (createStateFromAngles 0 0))).alpha
      = (QuantumGates.applyGate QuantumGates.hadamard (createStateFromAngles 0 0)).alpha ∧
    (QuantumGates.applyGate QuantumGates.pauliZ
      (QuantumGates.applyGate QuantumGates.hadamard (createStateFromAngles 0 0))).beta
      = -(QuantumGates.applyGate QuantumGates.hadamard (createStateFromAngles 0 0)).beta ∧
    (∃ c : BlochCoordinates,
      (QuantumGates.applyGate QuantumGates.hadamard
        (createStateFromAngles 0 0)).toBlochCoordinates = some c ∧ c.x = 1) ∧
    (∃ c : BlochCoordinates,
      (QuantumGates.applyGate QuantumGates.pauliZ
        (QuantumGates.applyGate QuantumGates.hadamard
          (createStateFromAngles 0 0))).toBlochCoordinates = some c ∧
      c.x = -1 ∧ c.y = 0 ∧ c.z = 0) := by
  rw [QuantumGates.applyGate_hadamard_ket0, QuantumGates.applyGate_pauliZ_plus]
  refine ⟨rfl, Complex.ofReal_neg _, rfl, Complex.ofReal_neg _,
    ⟨_, QubitState.toBlochCoordinates_plus, rfl⟩,
    ⟨_, QubitState.toBlochCoordinates_minus, rfl, rfl, rfl⟩⟩

/-- C17: `createStateFromAngles(π, 0)` has `alpha = 0` and `beta = 1`, and its
Bloch coordinates are `(x, y, z) = (0, 0, -1)`, the south pole. -/
theorem C17_south_pole :
    (createStateFromAngles Real.pi 0).alpha = 0 ∧
    (createStateFromAngles Real.pi 0).beta = 1 ∧
    ∃ c : BlochCoordinates,
      (createStateFromAngles Real.pi 0).toBlochCoordinates = some c ∧
      c.x = 0 ∧ c.y = 0 ∧ c.z = -1 := by
  rw [createStateFromAngles_pi_zero]
  exact ⟨rfl, rfl, _, QubitState.toBlochCoordinates_ket1, rfl, rfl, rfl⟩

/-- C18: `createStateFromAngles(0, 0)` has `alpha = 1` and `beta = 0`,
`probability0() = 1`, `probability1() = 0` and Bloch coordinates `(0, 0, 1)`;
the default-constructed `QubitState()` is the same state. -/
theorem C18_north_pole_default_state :
    (createStateFromAngles 0 0).alpha = 1 ∧
    (createStateFromAngles 0 0).beta = 0 ∧
    (createStateFromAngles 0 0).probability0 = 1 ∧
    (createStateFromAngles 0 0).probability1 = 0 ∧
    (∃ c : BlochCoordinates,
      (createStateFromAngles 0 0).toBlochCoordinates = some c ∧
      c.x = 0 ∧ c.y = 0 ∧ c.z = 1) ∧
    QubitState.constructorDefault = createStateFromAngles 0 0 := by
  have hd : QubitState.constructorDefault = { alpha := 1, beta := 0 } := by
    unfold QubitState.constructorDefault
    exact QubitState.constructor_of_normalized 1 0 (by simp)
  rw [createStateFromAngles_zero_zero, hd]
  refine ⟨rfl, rfl, ?_, ?_, ⟨_, QubitState.toBlochCoordinates_ket0, rfl, rfl, rfl⟩, rfl⟩
  · simp [QubitState.probability0]
  · simp [QubitState.probability1]

/-! ## Facts about the display string -/

theorem Number.floor_inv_sqrt2 : ⌊1 / Real.sqrt 2 * 10 ^ 3 + 1 / 2⌋₊ = 707 := by
  have hsq := QuantumGates.inv_sqrt2_sq
  have hp := QuantumGates.inv_sqrt2_pos
  generalize 1 / Real.sqrt 2 = r at hsq hp
  rw [Nat.floor_eq_iff (by positivity)]
  constructor
  · have h : (0.7065 : ℝ) ≤ r := by
      by_contra hc
      push_neg at hc
      nlinarith
    norm_num at h ⊢
    linarith
  · have h : r < (0.7075 : ℝ) := by
      by_contra hc
      push_neg at hc
      nlinarith
    norm_num at h ⊢
    linarith

theorem Number.toFixed_inv_sqrt2 : Number.toFixed (1 / Real.sqrt 2) 3 = "0.707" := by
  have hp := QuantumGates.inv_sqrt2_pos
  have hn : ¬ (1 / Real.sqrt 2 < 0) := not_lt.mpr hp.le
  simp only [Number.toFixed, if_neg hn, Number.floor_inv_sqrt2]
  decide

theorem Number.toFixed_neg_inv_sqrt2 : Number.toFixed (-(1 / Real.sqrt 2)) 3 = "-0.707" := by
  have hp := QuantumGates.inv_sqrt2_pos
  have hn : -(1 / Real.sqrt 2) < 0 := by linarith
  simp only [Number.toFixed, if_pos hn, neg_neg, Number.floor_inv_sqrt2]
  decide

theorem QubitState.formatComplex_inv_sqrt2 :
    QubitState.formatComplex ((1 / Real.sqrt 2 : ℝ) : ℂ) = "0.707" := by
  have h0 : |(0 : ℝ)| < 1e-10 := by norm_num
  simp only [QubitState.formatComplex, Complex.ofReal_im, Complex.ofReal_re, if_pos h0,
    Number.toFixed_inv_sqrt2]

theorem QubitState.formatComplex_neg_inv_sqrt2_I :
    QubitState.formatComplex (Complex.mk 0 (-(1 / Real.sqrt 2))) = "-0.707i" := by
  have hp := QuantumGates.inv_sqrt2_pos
  have hh := QuantumGates.inv_sqrt2_gt_half
  have hsq := QuantumGates.inv_sqrt2_sq
  have h0 : |(0 : ℝ)| < 1e-10 := by norm_num
  have h1 : ¬ |-(1 / Real.sqrt 2)| < 1e-10 := by
    rw [abs_neg, abs_of_pos hp]
    have : (1e-10 : ℝ) < 1 / 2 := by norm_num
    linarith
  have h2 : ¬ |-(1 / Real.sqrt 2) - 1| < 1e-10 := by
    rw [abs_lt]
    rintro ⟨hl, _⟩
    have : (1e-10 : ℝ) < 1 / 2 := by norm_num
    linarith
  have h3 : ¬ |-(1 / Real.sqrt 2) + 1| < 1e-10 := by
    rw [abs_lt]
    rintro ⟨_, hr⟩
    have hlt : 1 / Real.sqrt 2 < 9 / 10 := by
      by_contra hc
      push_neg at hc
      nlinarith
    have : (1e-10 : ℝ) < 1 / 10 := by norm_num
    linarith
  simp only [QubitState.formatComplex, if_neg h1, if_pos h0, if_neg h2, if_neg h3,
    Number.toFixed_neg_inv_sqrt2]
  decide

theorem QubitState.constructor_one_neg_I :
    QubitState.constructor 1 (Complex.mk 0 (-1))
      = { alpha := ((1 / Real.sqrt 2 : ℝ) : ℂ), beta := Complex.mk 0 (-(1 / Real.sqrt 2)) } := by
  have hne : ¬((1 : ℂ) = 0 ∧ Complex.mk 0 (-1) = 0) := fun h => one_ne_zero h.1
  have habs : Complex.abs (Complex.mk 0 (-1)) = 1 := by
    rw [Complex.abs_apply, Complex.normSq_mk]
    norm_num
  have hnorm : Complex.abs (1 : ℂ) ^ 2 + Complex.abs (Complex.mk 0 (-1)) ^ 2 = 2 := by
    rw [habs, map_one]
    norm_num
  rw [QubitState.constructor_of_ne_zero 1 (Complex.mk 0 (-1)) hne, hnorm]
  congr 1
  · push_cast
    rfl
  · apply Complex.ext
    · rw [Complex.div_ofReal_re]
      simp
    · rw [Complex.div_ofReal_im]
      simp only []
      ring

theorem QubitState.toStringSign_eq_plus_iff (s : QubitState) :
    s.toStringSign = "+" ↔ 0 ≤ s.beta.re := by
  unfold QubitState.toStringSign
  constructor
  · intro h
    by_contra hc
    have hcond : ¬(s.beta.re ≥ 0 ∨ (s.beta.re = 0 ∧ s.beta.im ≥ 0)) := by
      rintro (h1 | ⟨h1, _⟩)
      · exact hc h1
      · exact hc h1.ge
    simp only [if_neg hcond] at h
    exact absurd h (by decide)
  · intro h
    exact if_pos (Or.inl h)

/-- C19: for the state with `alpha = beta = 1/√2`, `toString()` returns
exactly `"|ψ⟩ = 0.707|0⟩ +0.707|1⟩"`. -/
theorem C19_toString_equal_superposition :
    (QubitState.constructor ((1 / Real.sqrt 2 : ℝ) : ℂ)
      ((1 / Real.sqrt 2 : ℝ) : ℂ)).toString = "|ψ⟩ = 0.707|0⟩ +0.707|1⟩" := by
  have hp := QuantumGates.inv_sqrt2_pos
  have hh := QuantumGates.inv_sqrt2_gt_half
  have hsmall : ¬ (1 / Real.sqrt 2 < 1e-10) := by
    have : (1e-10 : ℝ) < 1 / 2 := by norm_num
    linarith
  have hsign : (1 / Real.sqrt 2 ≥ 0 ∨ (1 / Real.sqrt 2 = 0 ∧ (0 : ℝ) ≥ 0)) := Or.inl hp.le
  rw [QubitState.constructor_of_normalized _ _ QuantumGates.hadamard_ket0_normalized]
  simp only [QubitState.toString, QubitState.toStringSign, QubitState.formatComplex_inv_sqrt2,
    Complex.abs_ofReal, abs_of_pos hp, if_neg hsmall, Complex.ofReal_re, Complex.ofReal_im,
    if_pos hsign]
  decide

/-- C20 fails on the code at `alpha = 1/√2`, `beta = -i/√2` (the state built by
`new QubitState(1, math.complex(0, -1))`): both amplitudes are non-negligible,
`beta` has real part exactly zero and a negative imaginary part, yet the
joiner `+` is emitted and `toString()` returns `"|ψ⟩ = 0.707|0⟩ +-0.707i|1⟩"`. -/
theorem C20_toString_joiner_negative_imaginary :
    ¬ Complex.abs (QubitState.constructor 1 (Complex.mk 0 (-1))).alpha < 1e-10 ∧
    ¬ Complex.abs (QubitState.constructor 1 (Complex.mk 0 (-1))).beta < 1e-10 ∧
    (QubitState.constructor 1 (Complex.mk 0 (-1))).beta.re = 0 ∧
    (QubitState.constructor 1 (Complex.mk 0 (-1))).beta.im < 0 ∧
    (QubitState.constructor 1 (Complex.mk 0 (-1))).toStringSign = "+" ∧
    (QubitState.constructor 1 (Complex.mk 0 (-1))).toString
      = "|ψ⟩ = 0.707|0⟩ +-0.707i|1⟩" := by
  have hp := QuantumGates.inv_sqrt2_pos
  have hh := QuantumGates.inv_sqrt2_gt_half
  have hsmall : ¬ (1 / Real.sqrt 2 < 1e-10) := by
    have : (1e-10 : ℝ) < 1 / 2 := by norm_num
    linarith
  have habs : Complex.abs (Complex.mk 0 (-(1 / Real.sqrt 2))) = 1 / Real.sqrt 2 := by
    rw [Complex.abs_apply, Complex.normSq_mk]
    have e : (0 : ℝ) * 0 + -(1 / Real.sqrt 2) * -(1 / Real.sqrt 2)
        = (1 / Real.sqrt 2) * (1 / Real.sqrt 2) := by ring
    rw [e, Real.sqrt_mul_self hp.le]
  have hsign : ((0 : ℝ) ≥ 0 ∨ ((0 : ℝ) = 0 ∧ -(1 / Real.sqrt 2) ≥ 0)) := Or.inl (le_refl _)
  have hs : QubitState.toStringSign
      { alpha := ((1 / Real.sqrt 2 : ℝ) : ℂ), beta := Complex.mk 0 (-(1 / Real.sqrt 2)) }
      = "+" := by
    unfold QubitState.toStringSign
    exact if_pos hsign
  rw [QubitState.constructor_one_neg_I]
  refine ⟨?_, ?_, rfl, ?_, hs, ?_⟩
  · simpa only [Complex.abs_ofReal, abs_of_pos hp] using hsmall
  · simpa only [habs] using hsmall
  · simp only []
    linarith
  · simp only [QubitState.toString, hs,
      QubitState.formatComplex_inv_sqrt2, QubitState.formatComplex_neg_inv_sqrt2_I,
      Complex.abs_ofReal, abs_of_pos hp, habs, if_neg hsmall]
    decide

/-! ## Claims on the display string forms and the gate selector -/

theorem Number.toFixed_zero : Number.toFixed 0 3 = "0.000" := by
  have hf : ⌊(0 : ℝ) * 10 ^ 3 + 1 / 2⌋₊ = 0 := by
    rw [Nat.floor_eq_iff (by norm_num)]
    norm_num
  simp only [Number.toFixed, lt_irrefl, if_false, hf]
  decide

theorem Number.toFixed_one : Number.toFixed 1 3 = "1.000" := by
  have hf : ⌊(1 : ℝ) * 10 ^ 3 + 1 / 2⌋₊ = 1000 := by
    rw [Nat.floor_eq_iff (by norm_num)]
    norm_num
  have hn : ¬ ((1 : ℝ) < 0) := by norm_num
  simp only [Number.toFixed, if_neg hn, hf]
  decide

theorem QubitState.formatComplex_zero : QubitState.formatComplex 0 = "0.000" := by
  have h0 : |(0 : ℝ)| < 1e-10 := by norm_num
  simp only [QubitState.formatComplex, Complex.zero_im, Complex.zero_re, if_pos h0,
    Number.toFixed_zero]

theorem QubitState.formatComplex_one : QubitState.formatComplex 1 = "1.000" := by
  have h0 : |(0 : ℝ)| < 1e-10 := by norm_num
  simp only [QubitState.formatComplex, Complex.one_im, Complex.one_re, if_pos h0,
    Number.toFixed_one]

theorem QubitState.formatComplex_I : QubitState.formatComplex (Complex.mk 0 1) = "i" := by
  have h0 : |(0 : ℝ)| < 1e-10 := by norm_num
  have h1 : ¬ |(1 : ℝ)| < 1e-10 := by norm_num
  have h2 : |(1 : ℝ) - 1| < 1e-10 := by norm_num
  simp only [QubitState.formatComplex, if_neg h1, if_pos h0, if_pos h2]

theorem QubitState.formatComplex_neg_I :
    QubitState.formatComplex (Complex.mk 0 (-1)) = "-i" := by
  have h0 : |(0 : ℝ)| < 1e-10 := by norm_num
  have h1 : ¬ |(-1 : ℝ)| < 1e-10 := by norm_num
  have h2 : ¬ |(-1 : ℝ) - 1| < 1e-10 := by norm_num
  have h3 : |(-1 : ℝ) + 1| < 1e-10 := by norm_num
  simp only [QubitState.formatComplex, if_neg h1, if_pos h0, if_neg h2, if_pos h3]

theorem QubitState.constructor_idempotent (a b : ℂ) :
    QubitState.constructor (QubitState.constructor a b).alpha (QubitState.constructor a b).beta
      = QubitState.constructor a b := by
  by_cases hz : a = 0 ∧ b = 0
  · obtain ⟨rfl, rfl⟩ := hz
    rw [QubitState.constructor_zero]
    exact QubitState.constructor_zero
  · exact QubitState.constructor_of_normalized _ _ (QubitState.constructor_prob_sum a b hz)

theorem QuantumGates.applyGate_pauliY_ket0 :
    QuantumGates.applyGate QuantumGates.pauliY (QubitState.constructor 1 0)
      = { alpha := 0, beta := Complex.mk 0 1 } := by
  have hn : QubitState.IsNormalized { alpha := 1, beta := 0 } := by
    simp [QubitState.IsNormalized]
  have hG := QuantumGates.pauliY_norm 1 0
  rw [QubitState.constructor_of_normalized 1 0 (by simp),
    QuantumGates.applyGate_of_norm_preserving QuantumGates.pauliY
      { alpha := 1, beta := 0 } hG hn]
  simp only [QuantumGates.pauliY, Matrix.cons_val_zero, Matrix.cons_val_one,
    Matrix.head_cons, mul_one, mul_zero, add_zero, zero_add]

/-- C21: `toString()` chooses its form in priority order: only the `|1⟩` term
with the formatted `beta` when `|alpha| < 1e-10` (also for the zero state),
otherwise only the `|0⟩` term with the formatted `alpha` when `|beta| < 1e-10`,
and both terms only otherwise. -/
theorem C21_toString_priority_order (s : QubitState) :
    s.toString =
      (if Complex.abs s.alpha < 1e-10 then
        "|ψ⟩ = " ++ QubitState.formatComplex s.beta ++ "|1⟩"
      else if Complex.abs s.beta < 1e-10 then
        "|ψ⟩ = " ++ QubitState.formatComplex s.alpha ++ "|0⟩"
      else
        "|ψ⟩ = " ++ QubitState.formatComplex s.alpha ++ "|0⟩ " ++ s.toStringSign
          ++ QubitState.formatComplex s.beta ++ "|1⟩") ∧
    (QubitState.constructor 0 0).toString = "|ψ⟩ = 0.000|1⟩" ∧
    (QubitState.constructor 0 1).toString = "|ψ⟩ = 1.000|1⟩" ∧
    (QubitState.constructor 1 0).toString = "|ψ⟩ = 1.000|0⟩" := by
  have h0 : (0 : ℝ) < 1e-10 := by norm_num
  have h1 : ¬ ((1 : ℝ) < 1e-10) := by norm_num
  refine ⟨rfl, ?_, ?_, ?_⟩
  · rw [QubitState.constructor_zero]
    simp only [QubitState.toString, map_zero, if_pos h0, QubitState.formatComplex_zero]
    decide
  · rw [QubitState.constructor_of_normalized 0 1 (by simp)]
    simp only [QubitState.toString, map_zero, if_pos h0, QubitState.formatComplex_one]
    decide
  · rw [QubitState.constructor_of_normalized 1 0 (by simp)]
    simp only [QubitState.toString, map_zero, map_one, if_pos h0, if_neg h1,
      QubitState.formatComplex_one]
    decide

/-- C22: the complex formatter of `toString()` maps `(re, im)` to `re` with 3
decimals when `|im| < 1e-10`; else, when `|re| < 1e-10`, to `"i"` if
`|im - 1| < 1e-10`, to `"-i"` if `|im + 1| < 1e-10`, and otherwise to `im` with 3
decimals followed by `"i"`; else to `re` with 3 decimals, a `+` exactly when
`im ≥ 0`, `im` with 3 decimals and `"i"`. In particular
`applyGate(pauliY(), |0⟩)` displays as `"|ψ⟩ = i|1⟩"`. -/
theorem C22_formatComplex_rules (c : ℂ) :
    QubitState.formatComplex c =
      (if |c.im| < 1e-10 then
        Number.toFixed c.re 3
      else if |c.re| < 1e-10 then
        (if |c.im - 1| < 1e-10 then "i"
         else if |c.im + 1| < 1e-10 then "-i"
         else Number.toFixed c.im 3 ++ "i")
      else
        Number.toFixed c.re 3 ++ (if c.im ≥ 0 then "+" else "")
          ++ Number.toFixed c.im 3 ++ "i") ∧
    QubitState.formatComplex (Complex.mk 0 1) = "i" ∧
    QubitState.formatComplex (Complex.mk 0 (-1)) = "-i" ∧
    (QuantumGates.applyGate QuantumGates.pauliY (QubitState.constructor 1 0)).toString
      = "|ψ⟩ = i|1⟩" := by
  have h0 : (0 : ℝ) < 1e-10 := by norm_num
  refine ⟨rfl, QubitState.formatComplex_I, QubitState.formatComplex_neg_I, ?_⟩
  rw [QuantumGates.applyGate_pauliY_ket0]
  simp only [QubitState.toString, map_zero, if_pos h0, QubitState.formatComplex_I]
  decide

theorem applySelectedGate.switch_eq_none (gateType : String)
    (h : gateType ∉ ["x", "y", "z", "h", "s", "t"]) :
    applySelectedGate.switch gateType = none := by
  simp only [List.mem_cons, List.mem_singleton, List.not_mem_nil, or_false, not_or] at h
  obtain ⟨hx, hy, hz, hh, hs, ht⟩ := h
  unfold applySelectedGate.switch
  split
  · exact absurd rfl hx
  · exact absurd rfl hy
  · exact absurd rfl hz
  · exact absurd rfl hh
  · exact absurd rfl hs
  · exact absurd rfl ht
  · rfl

theorem applySelectedGate_of_switch (gateType : String) (gate : Gate) (gateName : String)
    (h : applySelectedGate.switch gateType = some (gate, gateName)) (hnone : gateType ≠ "none")
    (currentState originalState : QubitState) (isAnimating : Bool) :
    applySelectedGate gateType currentState originalState isAnimating =
      (if isAnimating = false then
        GateEffect.animate currentState (QuantumGates.applyGate gate originalState) gateName
      else
        GateEffect.assign (QuantumGates.applyGate gate originalState)) := by
  unfold applySelectedGate
  rw [h]
  cases isAnimating <;> simp [hnone]

/-- C23: in `applySelectedGate`, for the selector `none` and every selector
outside `x, y, z, h, s, t`, the new current state has exactly the amplitudes of
the original state, for every original state produced by the constructor; for
each of the six recognised selectors the matrix applied to the original state
is the corresponding catalog gate. -/
theorem C23_applySelectedGate_identity_and_catalog (gateType : String)
    (h : gateType ∉ ["x", "y", "z", "h", "s", "t"]) (alpha beta : ℂ)
    (currentState originalState : QubitState) (isAnimating : Bool) :
    applySelectedGate gateType currentState (QubitState.constructor alpha beta) isAnimating
      = GateEffect.assign (QubitState.constructor alpha beta) ∧
    applySelectedGate "x" currentState originalState isAnimating
      = (if isAnimating = false then
          GateEffect.animate currentState
            (QuantumGates.applyGate QuantumGates.pauliX originalState) "Pauli-X"
         else GateEffect.assign (QuantumGates.applyGate QuantumGates.pauliX originalState)) ∧
    applySelectedGate "y" currentState originalState isAnimating
      = (if isAnimating = false then
          GateEffect.animate currentState
            (QuantumGates.applyGate QuantumGates.pauliY originalState) "Pauli-Y"
         else GateEffect.assign (QuantumGates.applyGate QuantumGates.pauliY originalState)) ∧
    applySelectedGate "z" currentState originalState isAnimating
      = (if isAnimating = false then
          GateEffect.animate currentState
            (QuantumGates.applyGate QuantumGates.pauliZ originalState) "Pauli-Z"
         else GateEffect.assign (QuantumGates.applyGate QuantumGates.pauliZ originalState)) ∧
    applySelectedGate "h" currentState originalState isAnimating
      = (if isAnimating = false then
          GateEffect.animate currentState
            (QuantumGates.applyGate QuantumGates.hadamard originalState) "Hadamard"
         else GateEffect.assign (QuantumGates.applyGate QuantumGates.hadamard originalState)) ∧
    applySelectedGate "s" currentState originalState isAnimating
      = (if isAnimating = false then
          GateEffect.animate currentState
            (QuantumGates.applyGate QuantumGates.sGate originalState) "S"
         else GateEffect.assign (QuantumGates.applyGate QuantumGates.sGate originalState)) ∧
    applySelectedGate "t" currentState originalState isAnimating
      = (if isAnimating = false then
          GateEffect.animate currentState
            (QuantumGates.applyGate QuantumGates.tGate originalState) "T"
         else GateEffect.assign (QuantumGates.applyGate QuantumGates.tGate originalState)) := by
  refine ⟨?_, ?_, ?_, ?_, ?_, ?_, ?_⟩
  · unfold applySelectedGate
    rw [applySelectedGate.switch_eq_none gateType h]
    simp only []
    rw [QubitState.constructor_idempotent]
  · exact applySelectedGate_of_switch "x" _ _ rfl (by decide) _ _ _
  · exact applySelectedGate_of_switch "y" _ _ rfl (by decide) _ _ _
  · exact applySelectedGate_of_switch "z" _ _ rfl (by decide) _ _ _
  · exact applySelectedGate_of_switch "h" _ _ rfl (by decide) _ _ _
  · exact applySelectedGate_of_switch "s" _ _ rfl (by decide) _ _ _
  · exact applySelectedGate_of_switch "t" _ _ rfl (by decide) _ _ _

/-- Witness of C23 at the selector `none` and the original state built from `(3, 4i)`. -/
theorem C23_applySelectedGate_identity_and_catalog_witness :
    "none" ∉ ["x", "y", "z", "h", "s", "t"] ∧
    applySelectedGate "none" { alpha := 1, beta := 0 }
        (QubitState.constructor 3 (4 * Complex.I)) false
      = GateEffect.assign (QubitState.constructor 3 (4 * Complex.I)) :=
  ⟨by decide,
   (C23_applySelectedGate_identity_and_catalog "none" (by decide) 3 (4 * Complex.I)
      { alpha := 1, beta := 0 } { alpha := 0, beta := 1 } false).1⟩

/-! ## Global phase and involutions -/

/-- C26: a global phase does not affect the measurement probabilities: for all
complex `alpha`, `beta` and every complex `c` with `|c| = 1`, the states
`QubitState(c*alpha, c*beta)` and `QubitState(alpha, beta)` have equal
`probability0()` and equal `probability1()`. -/
theorem C26_global_phase_probabilities (alpha beta c : ℂ) (hc : Complex.abs c = 1) :
    (QubitState.constructor (c * alpha) (c * beta)).probability0
      = (QubitState.constructor alpha beta).probability0 ∧
    (QubitState.constructor (c * alpha) (c * beta)).probability1
      = (QubitState.constructor alpha beta).probability1 := by
  simp only [QubitState.constructor, QubitState.normalize, map_mul, hc, one_mul]
  by_cases hn : Real.sqrt (Complex.abs alpha ^ 2 + Complex.abs beta ^ 2) = 0
  · simp [hn, QubitState.probability0, QubitState.probability1, hc]
  · simp [hn, QubitState.probability0, QubitState.probability1, hc]

/-- Witness of C26 at `alpha = 3`, `beta = 4`, `c = i`. -/
theorem C26_global_phase_probabilities_witness :
    Complex.abs Complex.I = 1 ∧
    (QubitState.constructor (Complex.I * 3) (Complex.I * 4)).probability0
      = (QubitState.constructor 3 4).probability0 ∧
    (QubitState.constructor (Complex.I * 3) (Complex.I * 4)).probability1
      = (QubitState.constructor 3 4).probability1 :=
  ⟨Complex.abs_I, C26_global_phase_probabilities 3 4 Complex.I Complex.abs_I⟩

theorem QuantumGates.applyGate_twice (G : Gate)
    (hG : ∀ a b : ℂ, Complex.abs (G 0 0 * a + G 0 1 * b) ^ 2
        + Complex.abs (G 1 0 * a + G 1 1 * b) ^ 2 = Complex.abs a ^ 2 + Complex.abs b ^ 2)
    (s : QubitState) (hs : s.IsNormalized) :
    QuantumGates.applyGate G (QuantumGates.applyGate G s) =
      { alpha := G 0 0 * (G 0 0 * s.alpha + G 0 1 * s.beta)
          + G 0 1 * (G 1 0 * s.alpha + G 1 1 * s.beta),
        beta := G 1 0 * (G 0 0 * s.alpha + G 0 1 * s.beta)
          + G 1 1 * (G 1 0 * s.alpha + G 1 1 * s.beta) } := by
  have hs1 : QubitState.IsNormalized
      { alpha := G 0 0 * s.alpha + G 0 1 * s.beta,
        beta := G 1 0 * s.alpha + G 1 1 * s.beta } := by
    unfold QubitState.IsNormalized
    simp only []
    rw [hG]
    exact hs
  rw [QuantumGates.applyGate_of_norm_preserving G s (hG _ _) hs]
  exact QuantumGates.applyGate_of_norm_preserving G
    { alpha := G 0 0 * s.alpha + G 0 1 * s.beta,
      beta := G 1 0 * s.alpha + G 1 1 * s.beta } (hG _ _) hs1

theorem QuantumGates.inv_sqrt2_mul_self_complex :
    ((1 / Real.sqrt 2 : ℝ) : ℂ) * ((1 / Real.sqrt 2 : ℝ) : ℂ) = 1 / 2 := by
  rw [← Complex.ofReal_mul, QuantumGates.inv_sqrt2_sq]
  push_cast
  ring

/-- C28: each of `pauliX`, `pauliY`, `pauliZ` and `hadamard` is an involution on
states: for every normalized state `s`, applying the gate twice gives back
exactly the amplitudes of `s`. -/
theorem C28_gates_are_involutions (G : Gate)
    (hG : G ∈ [QuantumGates.pauliX, QuantumGates.pauliY, QuantumGates.pauliZ,
      QuantumGates.hadamard])
    (s : QubitState) (hs : s.IsNormalized) :
    (QuantumGates.applyGate G (QuantumGates.applyGate G s)).alpha = s.alpha ∧
    (QuantumGates.applyGate G (QuantumGates.applyGate G s)).beta = s.beta := by
  simp only [List.mem_cons, List.mem_singleton, List.not_mem_nil, or_false] at hG
  have hI : Complex.mk 0 (-1) * Complex.mk 0 1 = 1 := by
    apply Complex.ext <;> simp
  have hI2 : Complex.mk 0 1 * Complex.mk 0 (-1) = 1 := by
    apply Complex.ext <;> simp
  rcases hG with rfl | rfl | rfl | rfl
  · rw [QuantumGates.applyGate_twice _ QuantumGates.pauliX_norm s hs]
    simp [QuantumGates.pauliX]
  · rw [QuantumGates.applyGate_twice _ QuantumGates.pauliY_norm s hs]
    simp only [QuantumGates.pauliY, Matrix.cons_val_zero, Matrix.cons_val_one,
      Matrix.head_cons, zero_mul, zero_add, add_zero, ← mul_assoc, hI, hI2, one_mul,
      and_self]
  · rw [QuantumGates.applyGate_twice _ QuantumGates.pauliZ_norm s hs]
    simp [QuantumGates.pauliZ]
  · rw [QuantumGates.applyGate_twice _ QuantumGates.hadamard_norm s hs]
    have hc := QuantumGates.inv_sqrt2_mul_self_complex
    simp only [QuantumGates.hadamard, Matrix.cons_val_zero, Matrix.cons_val_one,
      Matrix.head_cons, Complex.ofReal_neg]
    constructor
    · linear_combination (2 * s.alpha) * hc
    · linear_combination (2 * s.beta) * hc

/-- Witness of C28: the Pauli-Y gate on the state `(0, 1)`. -/
theorem C28_gates_are_involutions_witness :
    QuantumGates.pauliY ∈ [QuantumGates.pauliX, QuantumGates.pauliY, QuantumGates.pauliZ,
      QuantumGates.hadamard] ∧
    QubitState.IsNormalized { alpha := 0, beta := 1 } ∧
    (QuantumGates.applyGate QuantumGates.pauliY
      (QuantumGates.applyGate QuantumGates.pauliY { alpha := 0, beta := 1 })).alpha = 0 ∧
    (QuantumGates.applyGate QuantumGates.pauliY
      (QuantumGates.applyGate QuantumGates.pauliY { alpha := 0, beta := 1 })).beta = 1 :=
  ⟨by simp, by simp [QubitState.IsNormalized],
   C28_gates_are_involutions QuantumGates.pauliY (by simp)
     { alpha := 0, beta := 1 } (by simp [QubitState.IsNormalized])⟩

/-! ## The Bloch vector in terms of the amplitudes -/

theorem QubitState.toBlochCoordinates_vector (s : QubitState) (hs : s.IsNormalized)
    (hb : Complex.abs s.beta > 1e-10) :
    ∃ c : BlochCoordinates, s.toBlochCoordinates = some c ∧
      c.x = 2 * (s.alpha.re * s.beta.re + s.alpha.im * s.beta.im) ∧
      c.y = 2 * (s.alpha.re * s.beta.im - s.alpha.im * s.beta.re) ∧
      c.z = Complex.abs s.alpha ^ 2 - Complex.abs s.beta ^ 2 := by
  have hle := QubitState.abs_alpha_le_one_of_normalized s hs
  have hA : 0 ≤ Complex.abs s.alpha := Complex.abs.nonneg _
  have hB : 0 ≤ Complex.abs s.beta := Complex.abs.nonneg _
  unfold QubitState.IsNormalized at hs
  have hsqrt : Real.sqrt (1 - Complex.abs s.alpha ^ 2) = Complex.abs s.beta := by
    have e : 1 - Complex.abs s.alpha ^ 2 = Complex.abs s.beta ^ 2 := by linarith
    rw [e, Real.sqrt_sq hB]
  have hsin : Real.sin (2 * Real.arccos (Complex.abs s.alpha))
      = 2 * Complex.abs s.beta * Complex.abs s.alpha := by
    rw [Real.sin_two_mul, Real.sin_arccos, hsqrt, Real.cos_arccos (by linarith) hle]
  have hcos : Real.cos (2 * Real.arccos (Complex.abs s.alpha))
      = Complex.abs s.alpha ^ 2 - Complex.abs s.beta ^ 2 := by
    rw [Real.cos_two_mul, Real.cos_arccos (by linarith) hle]
    linarith
  have ca := Complex.abs_mul_cos_arg s.alpha
  have sa := Complex.abs_mul_sin_arg s.alpha
  have cb := Complex.abs_mul_cos_arg s.beta
  have sb := Complex.abs_mul_sin_arg s.beta
  refine ⟨_, QubitState.toBlochCoordinates_of_abs_le_one s hle, ?_, ?_, hcos⟩
  · simp only [if_pos hb]
    rw [hsin, Real.cos_sub, ← ca, ← sa, ← cb, ← sb]
    ring
  · simp only [if_pos hb]
    rw [hsin, Real.sin_sub, ← ca, ← sa, ← cb, ← sb]
    ring

theorem QuantumGates.applyGate_hadamard_amplitudes (s : QubitState) (hs : s.IsNormalized) :
    QuantumGates.applyGate QuantumGates.hadamard s =
      { alpha := ((1 / Real.sqrt 2 : ℝ) : ℂ) * s.alpha + ((1 / Real.sqrt 2 : ℝ) : ℂ) * s.beta,
        beta := ((1 / Real.sqrt 2 : ℝ) : ℂ) * s.alpha
          + ((-(1 / Real.sqrt 2) : ℝ) : ℂ) * s.beta } := by
  rw [QuantumGates.applyGate_of_norm_preserving QuantumGates.hadamard s
    (QuantumGates.hadamard_norm _ _) hs]
  simp only [QuantumGates.hadamard, Matrix.cons_val_zero, Matrix.cons_val_one,
    Matrix.head_cons]

theorem QuantumGates.applyGate_pauliX_amplitudes (s : QubitState) (hs : s.IsNormalized) :
    QuantumGates.applyGate QuantumGates.pauliX s = { alpha := s.beta, beta := s.alpha } := by
  rw [QuantumGates.applyGate_of_norm_preserving QuantumGates.pauliX s
    (QuantumGates.pauliX_norm _ _) hs]
  simp only [QuantumGates.pauliX, Matrix.cons_val_zero, Matrix.cons_val_one,
    Matrix.head_cons, zero_mul, one_mul, zero_add, add_zero]

/-- C24: the Hadamard gate acts on the Bloch sphere as the half-turn about the
`X+Z` axis: for every normalized state `s` whose `|1⟩` amplitude has magnitude
above `1e-10` both in `s` and in `applyGate(hadamard(), s)`, if
`toBlochCoordinates(s)` gives `(x, y, z)` then the transformed state gives
`(z, -y, x)`. -/
theorem C24_hadamard_bloch_rotation (s : QubitState) (hs : s.IsNormalized)
    (hb : Complex.abs s.beta > 1e-10)
    (hb1 : Complex.abs (QuantumGates.applyGate QuantumGates.hadamard s).beta > 1e-10) :
    ∃ c c1 : BlochCoordinates,
      s.toBlochCoordinates = some c ∧
      (QuantumGates.applyGate QuantumGates.hadamard s).toBlochCoordinates = some c1 ∧
      c1.x = c.z ∧ c1.y = -c.y ∧ c1.z = c.x := by
  have hsq := QuantumGates.inv_sqrt2_sq
  have hH := QuantumGates.applyGate_hadamard_amplitudes s hs
  have hs1 : (QuantumGates.applyGate QuantumGates.hadamard s).IsNormalized := by
    have h := QuantumGates.hadamard_norm s.alpha s.beta
    rw [QuantumGates.applyGate_of_norm_preserving QuantumGates.hadamard s h hs]
    unfold QubitState.IsNormalized
    simp only []
    rw [h]
    exact hs
  obtain ⟨c, hc, hx, hy, hz⟩ := QubitState.toBlochCoordinates_vector s hs hb
  obtain ⟨c1, hc1, hx1, hy1, hz1⟩ := QubitState.toBlochCoordinates_vector _ hs1 hb1
  refine ⟨c, c1, hc, hc1, ?_, ?_, ?_⟩
  · rw [hx1, hz, hH]
    simp only [Complex.sq_abs, Complex.normSq_apply, Complex.add_re, Complex.add_im,
      Complex.mul_re, Complex.mul_im, Complex.ofReal_re, Complex.ofReal_im, zero_mul,
      sub_zero, add_zero]
    generalize 1 / Real.sqrt 2 = r at hsq
    linear_combination (2 * (s.alpha.re * s.alpha.re + s.alpha.im * s.alpha.im
      - (s.beta.re * s.beta.re + s.beta.im * s.beta.im))) * hsq
  · rw [hy1, hy, hH]
    simp only [Complex.add_re, Complex.add_im,
      Complex.mul_re, Complex.mul_im, Complex.ofReal_re, Complex.ofReal_im, zero_mul,
      sub_zero, add_zero]
    generalize 1 / Real.sqrt 2 = r at hsq
    linear_combination (4 * (s.alpha.im * s.beta.re - s.alpha.re * s.beta.im)) * hsq
  · rw [hz1, hx, hH]
    simp only [Complex.sq_abs, Complex.normSq_apply, Complex.add_re, Complex.add_im,
      Complex.mul_re, Complex.mul_im, Complex.ofReal_re, Complex.ofReal_im, zero_mul,
      sub_zero, add_zero]
    generalize 1 / Real.sqrt 2 = r at hsq
    linear_combination (4 * (s.alpha.re * s.beta.re + s.alpha.im * s.beta.im)) * hsq

theorem QuantumGates.small_lt_inv_sqrt2 : (1e-10 : ℝ) < 1 / Real.sqrt 2 :=
  lt_trans (by norm_num) QuantumGates.inv_sqrt2_gt_half

theorem QuantumGates.abs_beta_hadamard_ket1 :
    Complex.abs (QuantumGates.applyGate QuantumGates.hadamard
      { alpha := 0, beta := 1 }).beta > 1e-10 := by
  have hn : QubitState.IsNormalized { alpha := 0, beta := 1 } := by
    simp [QubitState.IsNormalized]
  rw [QuantumGates.applyGate_hadamard_amplitudes { alpha := 0, beta := 1 } hn]
  simp only [mul_zero, mul_one, zero_add, Complex.abs_ofReal, abs_neg,
    abs_of_pos QuantumGates.inv_sqrt2_pos]
  exact QuantumGates.small_lt_inv_sqrt2

/-- Witness of C24 at the state `(0, 1)`. -/
theorem C24_hadamard_bloch_rotation_witness :
    QubitState.IsNormalized { alpha := 0, beta := 1 } ∧
    Complex.abs (1 : ℂ) > 1e-10 ∧
    Complex.abs (QuantumGates.applyGate QuantumGates.hadamard
      { alpha := 0, beta := 1 }).beta > 1e-10 ∧
    ∃ c c1 : BlochCoordinates,
      QubitState.toBlochCoordinates { alpha := 0, beta := 1 } = some c ∧
      (QuantumGates.applyGate QuantumGates.hadamard
        { alpha := 0, beta := 1 }).toBlochCoordinates = some c1 ∧
      c1.x = c.z ∧ c1.y = -c.y ∧ c1.z = c.x :=
  ⟨by simp [QubitState.IsNormalized], by norm_num, QuantumGates.abs_beta_hadamard_ket1,
   C24_hadamard_bloch_rotation { alpha := 0, beta := 1 } (by simp [QubitState.IsNormalized])
     (by norm_num) QuantumGates.abs_beta_hadamard_ket1⟩

/-- C25: the Pauli-X gate acts on the Bloch sphere as the half-turn about the
`X` axis: for every normalized state `s` with `|alpha| > 1e-10` and
`|beta| > 1e-10`, if `toBlochCoordinates(s)` gives `(x, y, z)` then
`toBlochCoordinates(applyGate(pauliX(), s))` gives `(x, -y, -z)`. -/
theorem C25_pauliX_bloch_rotation (s : QubitState) (hs : s.IsNormalized)
    (ha : Complex.abs s.alpha > 1e-10) (hb : Complex.abs s.beta > 1e-10) :
    ∃ c c1 : BlochCoordinates,
      s.toBlochCoordinates = some c ∧
      (QuantumGates.applyGate QuantumGates.pauliX s).toBlochCoordinates = some c1 ∧
      c1.x = c.x ∧ c1.y = -c.y ∧ c1.z = -c.z := by
  have hX := QuantumGates.applyGate_pauliX_amplitudes s hs
  have hs1 : QubitState.IsNormalized { alpha := s.beta, beta := s.alpha } := by
    unfold QubitState.IsNormalized at hs ⊢
    simp only []
    linarith
  obtain ⟨c, hc, hx, hy, hz⟩ := QubitState.toBlochCoordinates_vector s hs hb
  obtain ⟨c1, hc1, hx1, hy1, hz1⟩ :=
    QubitState.toBlochCoordinates_vector { alpha := s.beta, beta := s.alpha } hs1 ha
  refine ⟨c, c1, hc, by rw [hX]; exact hc1, ?_, ?_, ?_⟩
  · rw [hx1, hx]
    ring
  · rw [hy1, hy]
    ring
  · rw [hz1, hz]
    ring

theorem Complex.abs_three_fifths : Complex.abs ((3 / 5 : ℝ) : ℂ) = 3 / 5 := by
  rw [Complex.abs_ofReal, abs_of_pos (by norm_num)]

theorem Complex.abs_four_fifths_I : Complex.abs (Complex.mk 0 (4 / 5)) = 4 / 5 := by
  rw [Complex.abs_apply, Complex.normSq_mk]
  have e : (0 : ℝ) * 0 + 4 / 5 * (4 / 5) = 4 / 5 * (4 / 5) := by ring
  rw [e, Real.sqrt_mul_self (by norm_num)]

/-- Witness of C25 at the state `(3/5, 4i/5)`, off the rotation axis: its Bloch
vector `(0, 24/25, -7/25)` is sent to `(0, -24/25, 7/25)`. -/
theorem C25_pauliX_bloch_rotation_witness :
    QubitState.IsNormalized { alpha := ((3 / 5 : ℝ) : ℂ), beta := Complex.mk 0 (4 / 5) } ∧
    Complex.abs ((3 / 5 : ℝ) : ℂ) > 1e-10 ∧
    Complex.abs (Complex.mk 0 (4 / 5)) > 1e-10 ∧
    ∃ c c1 : BlochCoordinates,
      QubitState.toBlochCoordinates
        { alpha := ((3 / 5 : ℝ) : ℂ), beta := Complex.mk 0 (4 / 5) } = some c ∧
      (QuantumGates.applyGate QuantumGates.pauliX
        { alpha := ((3 / 5 : ℝ) : ℂ), beta := Complex.mk 0 (4 / 5) }).toBlochCoordinates
        = some c1 ∧
      (c1.x = c.x ∧ c1.y = -c.y ∧ c1.z = -c.z) ∧
      (c.x = 0 ∧ c.y = 24 / 25 ∧ c.z = -(7 / 25)) ∧
      (c1.x = 0 ∧ c1.y = -(24 / 25) ∧ c1.z = 7 / 25) := by
  have hn : QubitState.IsNormalized
      { alpha := ((3 / 5 : ℝ) : ℂ), beta := Complex.mk 0 (4 / 5) } := by
    unfold QubitState.IsNormalized
    simp only [Complex.abs_three_fifths, Complex.abs_four_fifths_I]
    norm_num
  have ha : Complex.abs ((3 / 5 : ℝ) : ℂ) > 1e-10 := by
    rw [Complex.abs_three_fifths]; norm_num
  have hb : Complex.abs (Complex.mk 0 (4 / 5)) > 1e-10 := by
    rw [Complex.abs_four_fifths_I]; norm_num
  obtain ⟨c, c1, hc, hc1, hx, hy, hz⟩ := C25_pauliX_bloch_rotation
    { alpha := ((3 / 5 : ℝ) : ℂ), beta := Complex.mk 0 (4 / 5) } hn ha hb
  obtain ⟨d, hd, hdx, hdy, hdz⟩ := QubitState.toBlochCoordinates_vector
    { alpha := ((3 / 5 : ℝ) : ℂ), beta := Complex.mk 0 (4 / 5) } hn hb
  have hcd : c = d := by
    rw [hc] at hd
    exact Option.some.inj hd
  subst hcd
  have vx : c.x = 0 := by
    rw [hdx]
    simp only [Complex.ofReal_re, Complex.ofReal_im]
    norm_num
  have vy : c.y = 24 / 25 := by
    rw [hdy]
    simp only [Complex.ofReal_re, Complex.ofReal_im]
    norm_num
  have vz : c.z = -(7 / 25) := by
    rw [hdz]
    simp only [Complex.abs_three_fifths, Complex.abs_four_fifths_I]
    norm_num
  refine ⟨hn, ha, hb, c, c1, hc, hc1, ⟨hx, hy, hz⟩, ⟨vx, vy, vz⟩, ?_, ?_, ?_⟩
  · rw [hx, vx]
  · rw [hy, vy]
  · rw [hz, vz, neg_neg]

/-- C27: for every `theta` in `[0, π]` with `sin(theta/2) > 1e-10` and every real
`phi`, the Bloch vector of `createStateFromAngles(theta, phi)` is exactly
`(sin(theta)*cos(phi), sin(theta)*sin(phi), cos(theta))`. -/
theorem C27_bloch_vector_of_angles (theta phi : ℝ) (_h0 : 0 ≤ theta) (_h1 : theta ≤ Real.pi)
    (hs : Real.sin (theta / 2) > 1e-10) :
    ∃ c : BlochCoordinates,
      (createStateFromAngles theta phi).toBlochCoordinates = some c ∧
      c.x = Real.sin theta * Real.cos phi ∧
      c.y = Real.sin theta * Real.sin phi ∧
      c.z = Real.cos theta := by
  have hs0 : 0 < Real.sin (theta / 2) := lt_trans (by norm_num) hs
  have hb : Complex.abs (createStateFromAngles theta phi).beta > 1e-10 := by
    rw [createStateFromAngles_abs_beta, abs_of_pos hs0]
    exact hs
  have hsin : Real.sin theta = 2 * Real.sin (theta / 2) * Real.cos (theta / 2) := by
    rw [← Real.sin_two_mul]
    congr 1
    ring
  have hcos : Real.cos theta = 2 * Real.cos (theta / 2) ^ 2 - 1 := by
    rw [← Real.cos_two_mul]
    congr 1
    ring
  have hcs := Real.sin_sq_add_cos_sq (theta / 2)
  obtain ⟨c, hc, hx, hy, hz⟩ := QubitState.toBlochCoordinates_vector _
    (createStateFromAngles_normalized theta phi) hb
  refine ⟨c, hc, ?_, ?_, ?_⟩
  · rw [hx, createStateFromAngles_eq, hsin]
    simp only [Complex.mul_re, Complex.mul_im, Complex.ofReal_re, Complex.ofReal_im]
    ring
  · rw [hy, createStateFromAngles_eq, hsin]
    simp only [Complex.mul_re, Complex.mul_im, Complex.ofReal_re, Complex.ofReal_im]
    ring
  · rw [hz, createStateFromAngles_abs_alpha, createStateFromAngles_abs_beta, sq_abs, sq_abs,
      hcos]
    linarith

/-- Witness of C27 at `theta = π/2`, `phi = 3π/2`, an azimuth in `(π, 2π)`: the
returned angle is `-π/2`, not the input, and the Bloch vector is `(0, -1, 0)`,
which is `(sin(theta)*cos(phi), sin(theta)*sin(phi), cos(theta))`. -/
theorem C27_bloch_vector_of_angles_witness :
    (0 : ℝ) ≤ Real.pi / 2 ∧ Real.pi / 2 ≤ Real.pi ∧
    Real.sin (Real.pi / 2 / 2) > 1e-10 ∧
    (Real.pi < 3 * Real.pi / 2 ∧ 3 * Real.pi / 2 < 2 * Real.pi) ∧
    ∃ c : BlochCoordinates,
      (createStateFromAngles (Real.pi / 2) (3 * Real.pi / 2)).toBlochCoordinates = some c ∧
      (c.x = Real.sin (Real.pi / 2) * Real.cos (3 * Real.pi / 2) ∧
       c.y = Real.sin (Real.pi / 2) * Real.sin (3 * Real.pi / 2) ∧
       c.z = Real.cos (Real.pi / 2)) ∧
      (c.x = 0 ∧ c.y = -1 ∧ c.z = 0) ∧
      c.phi = -(Real.pi / 2) := by
  have hpi := Real.pi_gt_three
  have hs : Real.sin (Real.pi / 2 / 2) > 1e-10 :=
    Real.small_lt_sin_of_gt (Real.pi / 2 / 2) (by linarith) (by linarith)
  have e32 : 3 * Real.pi / 2 = Real.pi / 2 + Real.pi := by ring
  have hsin32 : Real.sin (3 * Real.pi / 2) = -1 := by
    rw [e32, Real.sin_add_pi, Real.sin_pi_div_two]
  have hcos32 : Real.cos (3 * Real.pi / 2) = 0 := by
    rw [e32, Real.cos_add_pi, Real.cos_pi_div_two, neg_zero]
  obtain ⟨c, hc, hx, hy, hz⟩ := C27_bloch_vector_of_angles (Real.pi / 2) (3 * Real.pi / 2)
    (by linarith) (by linarith) hs
  obtain ⟨d, hd, hdphi⟩ := createStateFromAngles_bloch_phi (Real.pi / 2) (-(Real.pi / 2))
    (by linarith) (by linarith) ⟨by linarith, by linarith⟩
  have hshift := createStateFromAngles_shift (Real.pi / 2) (3 * Real.pi / 2)
  have e : 3 * Real.pi / 2 - 2 * Real.pi = -(Real.pi / 2) := by ring
  rw [e] at hshift
  have hcd : c = d := by
    rw [hshift, hd] at hc
    exact (Option.some.inj hc).symm
  refine ⟨by linarith, by linarith, hs, ⟨by linarith, by linarith⟩, c, hc, ⟨hx, hy, hz⟩,
    ⟨?_, ?_, ?_⟩, ?_⟩
  · rw [hx, hcos32, mul_zero]
  · rw [hy, hsin32, Real.sin_pi_div_two, mul_neg, mul_one]
  · rw [hz, Real.cos_pi_div_two]
  · rw [hcd, hdphi]

/-! ## The interpolated states of the gate animation -/

theorem QubitState.normSq_sum_of_normalized (s : QubitState) (hs : s.IsNormalized) :
    s.alpha.re * s.alpha.re + s.alpha.im * s.alpha.im
      + (s.beta.re * s.beta.re + s.beta.im * s.beta.im) = 1 := by
  unfold QubitState.IsNormalized at hs
  simpa only [Complex.sq_abs, Complex.normSq_apply] using hs

theorem animateGateTransition.raw_zero_iff (f t : QubitState) (e : ℝ)
    (hf : f.IsNormalized) (ht : t.IsNormalized) :
    (Complex.mk (f.alpha.re + (t.alpha.re - f.alpha.re) * e)
        (f.alpha.im + (t.alpha.im - f.alpha.im) * e) = 0 ∧
      Complex.mk (f.beta.re + (t.beta.re - f.beta.re) * e)
        (f.beta.im + (t.beta.im - f.beta.im) * e) = 0) ↔
    (e = 1 / 2 ∧ t.alpha = -f.alpha ∧ t.beta = -f.beta) := by
  have hf1 := QubitState.normSq_sum_of_normalized f hf
  have ht1 := QubitState.normSq_sum_of_normalized t ht
  simp only [Complex.ext_iff, Complex.zero_re, Complex.zero_im, Complex.neg_re, Complex.neg_im]
  constructor
  · rintro ⟨⟨h1, h2⟩, h3, h4⟩
    have k1 : (1 - e) * f.alpha.re = -(e * t.alpha.re) := by linear_combination h1
    have k2 : (1 - e) * f.alpha.im = -(e * t.alpha.im) := by linear_combination h2
    have k3 : (1 - e) * f.beta.re = -(e * t.beta.re) := by linear_combination h3
    have k4 : (1 - e) * f.beta.im = -(e * t.beta.im) := by linear_combination h4
    have q1 : (1 - e) ^ 2 * (f.alpha.re * f.alpha.re) = e ^ 2 * (t.alpha.re * t.alpha.re) := by
      linear_combination ((1 - e) * f.alpha.re - e * t.alpha.re) * k1
    have q2 : (1 - e) ^ 2 * (f.alpha.im * f.alpha.im) = e ^ 2 * (t.alpha.im * t.alpha.im) := by
      linear_combination ((1 - e) * f.alpha.im - e * t.alpha.im) * k2
    have q3 : (1 - e) ^ 2 * (f.beta.re * f.beta.re) = e ^ 2 * (t.beta.re * t.beta.re) := by
      linear_combination ((1 - e) * f.beta.re - e * t.beta.re) * k3
    have q4 : (1 - e) ^ 2 * (f.beta.im * f.beta.im) = e ^ 2 * (t.beta.im * t.beta.im) := by
      linear_combination ((1 - e) * f.beta.im - e * t.beta.im) * k4
    have hsq : (1 - e) ^ 2 = e ^ 2 := by
      linear_combination q1 + q2 + q3 + q4 - (1 - e) ^ 2 * hf1 + e ^ 2 * ht1
    have he : e = 1 / 2 := by linear_combination (-1 / 2) * hsq
    subst he
    refine ⟨rfl, ⟨?_, ?_⟩, ?_, ?_⟩ <;> linarith
  · rintro ⟨he, ⟨h1, h2⟩, h3, h4⟩
    subst he
    rw [h1, h2, h3, h4]
    refine ⟨⟨?_, ?_⟩, ?_, ?_⟩ <;> ring

theorem animateGateTransition.interpolatedState_eq (f t : QubitState) (e : ℝ) :
    animateGateTransition.interpolatedState f t e =
      QubitState.constructor
        (Complex.mk (f.alpha.re + (t.alpha.re - f.alpha.re) * e)
          (f.alpha.im + (t.alpha.im - f.alpha.im) * e))
        (Complex.mk (f.beta.re + (t.beta.re - f.beta.re) * e)
          (f.beta.im + (t.beta.im - f.beta.im) * e)) := rfl

theorem QubitState.prob_sum_zero_state :
    QubitState.probability0 { alpha := 0, beta := 0 }
      + QubitState.probability1 { alpha := 0, beta := 0 } = 0 := by
  simp [QubitState.probability0, QubitState.probability1]

/-- C29: in `animateGateTransition`, for normalized `fromState` and `toState`
and every eased progress `e` in `[0, 1]`, the intermediate state built from the
component-wise interpolation `(1-e)*from + e*to` has total probability 1, except
exactly when `e = 1/2` and `toState` is the negation of `fromState`: then both
interpolated amplitudes are zero and the total probability is 0. At `e = 0` the
state equals `fromState` and at `e = 1` it equals `toState`. -/
theorem C29_interpolated_state_normalized (fromState toState : QubitState) (e : ℝ)
    (hf : fromState.IsNormalized) (ht : toState.IsNormalized)
    (_he0 : 0 ≤ e) (_he1 : e ≤ 1) :
    animateGateTransition.interpolatedState fromState toState e
      = QubitState.constructor
          (((1 - e : ℝ) : ℂ) * fromState.alpha + ((e : ℝ) : ℂ) * toState.alpha)
          (((1 - e : ℝ) : ℂ) * fromState.beta + ((e : ℝ) : ℂ) * toState.beta) ∧
    ((e = 1 / 2 ∧ toState.alpha = -fromState.alpha ∧ toState.beta = -fromState.beta) ↔
      ((animateGateTransition.interpolatedState fromState toState e).alpha = 0 ∧
       (animateGateTransition.interpolatedState fromState toState e).beta = 0 ∧
       (animateGateTransition.interpolatedState fromState toState e).probability0
        + (animateGateTransition.interpolatedState fromState toState e).probability1 = 0)) ∧
    (¬(e = 1 / 2 ∧ toState.alpha = -fromState.alpha ∧ toState.beta = -fromState.beta) ↔
      (animateGateTransition.interpolatedState fromState toState e).probability0
        + (animateGateTransition.interpolatedState fromState toState e).probability1 = 1) ∧
    animateGateTransition.interpolatedState fromState toState 0 = fromState ∧
    animateGateTransition.interpolatedState fromState toState 1 = toState := by
  have hiff := animateGateTransition.raw_zero_iff fromState toState e hf ht
  have heq := animateGateTransition.interpolatedState_eq fromState toState e
  refine ⟨?_, ?_, ?_, ?_, ?_⟩
  · rw [heq]
    congr 1 <;>
      (apply Complex.ext <;>
        simp only [Complex.add_re, Complex.add_im, Complex.mul_re, Complex.mul_im,
          Complex.ofReal_re, Complex.ofReal_im] <;> ring)
  · rw [heq, ← hiff]
    constructor
    · rintro ⟨h1, h2⟩
      rw [h1, h2, QubitState.constructor_zero]
      exact ⟨rfl, rfl, QubitState.prob_sum_zero_state⟩
    · rintro ⟨_, _, hp⟩
      by_contra hne
      rw [QubitState.constructor_prob_sum _ _ hne] at hp
      exact one_ne_zero hp
  · rw [heq, ← hiff]
    constructor
    · intro hne
      exact QubitState.constructor_prob_sum _ _ hne
    · rintro hp ⟨h1, h2⟩
      rw [h1, h2, QubitState.constructor_zero, QubitState.prob_sum_zero_state] at hp
      exact zero_ne_one hp
  · rw [animateGateTransition.interpolatedState_eq]
    simp only [mul_zero, add_zero, Complex.eta]
    exact QubitState.constructor_of_normalized _ _ hf
  · rw [animateGateTransition.interpolatedState_eq]
    simp only [mul_one, add_sub_cancel, Complex.eta]
    exact QubitState.constructor_of_normalized _ _ ht

/-- Witness of C29: from `(1, 0)` to `(0, 1)` at eased progress `1/4`. -/
theorem C29_interpolated_state_normalized_witness :
    QubitState.IsNormalized { alpha := 1, beta := 0 } ∧
    QubitState.IsNormalized { alpha := 0, beta := 1 } ∧
    (0 : ℝ) ≤ 1 / 4 ∧ (1 / 4 : ℝ) ≤ 1 ∧
    (¬((1 / 4 : ℝ) = 1 / 2 ∧ (0 : ℂ) = -1 ∧ (1 : ℂ) = -0) ↔
      (animateGateTransition.interpolatedState { alpha := 1, beta := 0 }
          { alpha := 0, beta := 1 } (1 / 4)).probability0
        + (animateGateTransition.interpolatedState { alpha := 1, beta := 0 }
          { alpha := 0, beta := 1 } (1 / 4)).probability1 = 1) :=
  ⟨by simp [QubitState.IsNormalized], by simp [QubitState.IsNormalized],
   by norm_num, by norm_num,
   (C29_interpolated_state_normalized { alpha := 1, beta := 0 } { alpha := 0, beta := 1 }
      (1 / 4) (by simp [QubitState.IsNormalized]) (by simp [QubitState.IsNormalized])
      (by norm_num) (by norm_num)).2.2.1⟩

end
